import Mathlib

/-!
Verification of the annotated-equation placement engine of `autoslide`
(`src/autoslide/equations.py`).

The Python code is shallowly embedded:

* lengths in points (Python floats holding decimal constants) become `ℚ`;
* Python dicts keyed by the 1-based annotation index become functions
  `Nat → Option _` (`none` = key absent);
* Python strings become `List Char`, indexed by integer positions exactly as
  Python indexes `str`;
* a Python function that can raise is embedded with result type `Option _`
  (`none` = an uncaught exception such as `KeyError`) or, where the source
  raises `ValueError` with a message, `Option (Except message _)`;
* the literal strings `"above"`, `"below"`, `"base west"`, `"base east"`
  used by the source as enum-like tags become the inductive types `Side`
  and `Anchor`.
-/

/-- The two sides of the equation, the source's literal strings
`"above"`/`"below"`. -/
inductive Side where
  | above
  | below
deriving DecidableEq

/-- The two anchor directions, the source's literal strings
`"base west"` (label extends rightward) / `"base east"` (leftward). -/
inductive Anchor where
  | baseWest
  | baseEast
deriving DecidableEq

/-- One per-annotation hypothesis `(position, level, anchor)` as generated by
`generate_placement_combinations`. -/
structure Candidate where
  side : Side
  level : ℚ
  anchor : Anchor
deriving DecidableEq

/-- One element of a `placements_by_level` bucket in
`check_placement_validity`: the tuple
`(i, left_bound, right_bound, anchor, padded_width)`. -/
structure Entry where
  idx : Nat
  left : ℚ
  right : ℚ
  anchor : Anchor
  width : ℚ
deriving DecidableEq

/-- Configuration constant `BASE_WIDTH_PT` of
`determine_annotation_placement`: full page width, 455pt. -/
def BASE_WIDTH_PT : ℚ := 455

/-- Configuration value `PAGE_WIDTH_PT` of `determine_annotation_placement`:
the usable width for the active layout mode. -/
def PAGE_WIDTH_PT (has_columns : Bool) : ℚ :=
  if has_columns then (BASE_WIDTH_PT - 20) / 2 else BASE_WIDTH_PT

/-- Configuration constant `HORIZONTAL_PADDING_PT` of
`determine_annotation_placement`. -/
def HORIZONTAL_PADDING_PT : ℚ := 10

/-- The `left_margin` local of `check_placement_validity`:
`5.0 if has_columns else 20.0`. -/
def left_margin (has_columns : Bool) : ℚ := if has_columns then 5 else 20

/-- The dict update `placements_by_level.setdefault(key, []).append(entry)`:
append `e` to the bucket of key `k`, creating the bucket at the end (Python
dicts preserve insertion order). -/
def addToGroups : List ((Side × ℚ) × List Entry) → Side × ℚ → Entry →
    List ((Side × ℚ) × List Entry)
  | [], k, e => [(k, [e])]
  | (k', es) :: rest, k, e =>
    if k' = k then (k', es ++ [e]) :: rest else (k', es) :: addToGroups rest k e

/-- The bucket element built for index `i` from its candidate, measured
`(width, height)` pair and node x-position: bounds
`[node_x, node_x + padded_width]` for `base west`,
`[node_x - padded_width, node_x]` for `base east`, with
`padded_width = width_pt + 1 * horizontal_padding_pt`. -/
def entryFor (horizontal_padding_pt : ℚ) (i : Nat) (c : Candidate) (wh : ℚ × ℚ)
    (node_x : ℚ) : Entry :=
  let padded_width := wh.1 + 1 * horizontal_padding_pt
  match c.anchor with
  | Anchor.baseWest => ⟨i, node_x, node_x + padded_width, c.anchor, padded_width⟩
  | Anchor.baseEast => ⟨i, node_x - padded_width, node_x, c.anchor, padded_width⟩

/-- First loop of `check_placement_validity` (`for i, (position, level, anchor)
in enumerate(combination, 1)`).  Outer `none` = the `KeyError` raised by
`node_shifts[i]` when the shift is missing; `some none` = an early
`return False` on a side-feasibility violation; `some (some groups)` = the
`placements_by_level` dict. -/
def buildGroups (bounding_boxes : Nat → Option (ℚ × ℚ)) (node_positions : Nat → Option ℚ)
    (horizontal_padding_pt : ℚ) (node_shifts : Nat → Option ℚ) :
    List Candidate → Nat → List ((Side × ℚ) × List Entry) →
    Option (Option (List ((Side × ℚ) × List Entry)))
  | [], _, acc => some (some acc)
  | c :: rest, i, acc =>
    match node_shifts i with
    | none => none
    | some sh =>
      if sh < 0 ∧ c.side = Side.above then some none
      else if sh > 0 ∧ c.side = Side.below then some none
      else
        match bounding_boxes i, node_positions i with
        | some wh, some node_x =>
          buildGroups bounding_boxes node_positions horizontal_padding_pt node_shifts
            rest (i + 1)
            (addToGroups acc (c.side, c.level) (entryFor horizontal_padding_pt i c wh node_x))
        | _, _ =>
          buildGroups bounding_boxes node_positions horizontal_padding_pt node_shifts
            rest (i + 1) acc

/-- Stable insertion step for `annotations.sort(key=lambda x: x[1])`:
an element is placed before the first list element whose `left` is not
strictly smaller, which reproduces Python's stable ascending sort. -/
def insertByLeft (e : Entry) : List Entry → List Entry
  | [] => [e]
  | b :: bs => if b.left < e.left then b :: insertByLeft e bs else e :: b :: bs

/-- The in-place `annotations.sort(key=lambda x: x[1])` of
`check_placement_validity`, as a stable sort by the left bound. -/
def sortByLeft : List Entry → List Entry
  | [] => []
  | a :: as => insertByLeft a (sortByLeft as)

/-- The adjacent-overlap loop of `check_placement_validity`
(`if curr_right > next_left: return False`), as a boolean over the sorted
bucket. -/
def adjacentOk : List Entry → Bool
  | [] => true
  | [_] => true
  | a :: b :: rest => if a.right > b.left then false else adjacentOk (b :: rest)

/-- The page-bound loop of `check_placement_validity`
(`if left_bound < left_margin or right_bound > page_width_pt: return False`). -/
def boundsOk (margin page_width_pt : ℚ) (l : List Entry) : Bool :=
  l.all fun e => !(decide (e.left < margin) || decide (e.right > page_width_pt))

/-- The vertical-line crossing check of `check_placement_validity`: two
buckets on the same side with `level_1 < level_2`, where some span of the
nearer bucket passes within the 5pt clearance of some marker x-coordinate of
the farther bucket. -/
def crossingViolation (node_positions : Nat → Option ℚ)
    (groups : List ((Side × ℚ) × List Entry)) : Bool :=
  groups.any fun g1 =>
    groups.any fun g2 =>
      if g1.1.1 = g2.1.1 ∧ g1.1.2 < g2.1.2 then
        g1.2.any fun a1 =>
          g2.2.any fun a2 =>
            match node_positions a2.idx with
            | some vertical_line_x =>
              decide (a1.left < vertical_line_x + 5 ∧ a1.right > vertical_line_x - 5)
            | none => false
      else false

/-- Embedding of `check_placement_validity` (equations.py).  `none` = the
`KeyError` on a missing `node_shifts[i]`; `some b` = the returned boolean.
The boolean collapses the source's early-`return False` structure: the
source returns `True` iff every bucket passes the adjacent-overlap and
page-bound checks and no vertical-line crossing exists. -/
def check_placement_validity (combination : List Candidate)
    (bounding_boxes : Nat → Option (ℚ × ℚ)) (node_positions : Nat → Option ℚ)
    (page_width_pt horizontal_padding_pt : ℚ) (node_shifts : Nat → Option ℚ)
    (has_columns : Bool) : Option Bool :=
  match buildGroups bounding_boxes node_positions horizontal_padding_pt node_shifts
    combination 1 [] with
  | none => none
  | some none => some false
  | some (some groups) =>
    some ((groups.all fun g =>
        adjacentOk (sortByLeft g.2) && boundsOk (left_margin has_columns) page_width_pt g.2)
      && !crossingViolation node_positions groups)

/-- The per-annotation option list built by `generate_placement_combinations`:
below levels first (west then east per level), then above levels. -/
def annotationOptions (levels_above levels_below : List ℚ) : List Candidate :=
  (levels_below.flatMap fun level =>
      [⟨Side.below, level, Anchor.baseWest⟩, ⟨Side.below, level, Anchor.baseEast⟩])
    ++ levels_above.flatMap fun level =>
      [⟨Side.above, level, Anchor.baseWest⟩, ⟨Side.above, level, Anchor.baseEast⟩]

/-- The order of `itertools.product`: the first list varies slowest, the last
fastest. -/
def listProduct {α : Type} : List (List α) → List (List α)
  | [] => [[]]
  | xs :: rest => xs.flatMap fun x => (listProduct rest).map (x :: ·)

/-- Embedding of `generate_placement_combinations` (equations.py): the full
Cartesian product of identical per-annotation option lists, in
`itertools.product` order. -/
def generate_placement_combinations (num_annotations : Nat)
    (levels_above levels_below : List ℚ) : List (List Candidate) :=
  listProduct (List.replicate num_annotations (annotationOptions levels_above levels_below))

/-- The `levels_below` list of `find_optimal_placement`:
`[base_level_pt + i * 15.0 for i in range(num_levels)]` with
`base_level_pt = 15.0`. -/
def levelsBelow (num_levels : Nat) : List ℚ :=
  (List.range num_levels).map fun i => 15 + (i : ℚ) * 15

/-- The inner `for combination in all_combinations` loop of
`find_optimal_placement`: first combination whose validity check returns
`True`.  Outer `none` = the check raised; `some none` = no valid combination
in the list. -/
def findValidCombo (check : List Candidate → Option Bool) :
    List (List Candidate) → Option (Option (List Candidate))
  | [] => some none
  | c :: rest =>
    match check c with
    | none => none
    | some true => some (some c)
    | some false => findValidCombo check rest

/-- The `for num_levels in range(1, max_attempts + 1)` loop of
`find_optimal_placement` (`max_attempts = 5`), widening the below-level count
by one per attempt.  `fuel` counts the remaining attempts, `num_levels` is
the current attempt's level count; `levels_above` is always `[20.0]`. -/
def searchAux (num_annotations : Nat) (check : List Candidate → Option Bool) :
    Nat → Nat → Option (Option (List Candidate))
  | 0, _ => some none
  | fuel + 1, num_levels =>
    match findValidCombo check
        (generate_placement_combinations num_annotations [20] (levelsBelow num_levels)) with
    | none => none
    | some (some c) => some (some c)
    | some none => searchAux num_annotations check fuel (num_levels + 1)

/-- The result-building loop of `find_optimal_placement` on a validated
combination: split entries into the above/below placement dicts, keeping
only indices present in `node_names`, in index order. -/
def mapsGo (node_names : Nat → Option (List Char)) :
    List Candidate → Nat → List (Nat × ℚ × Anchor) × List (Nat × ℚ × Anchor) →
    List (Nat × ℚ × Anchor) × List (Nat × ℚ × Anchor)
  | [], _, acc => acc
  | c :: rest, i, (ab, be) =>
    if (node_names i).isSome then
      match c.side with
      | Side.above => mapsGo node_names rest (i + 1) (ab ++ [(i, c.level, c.anchor)], be)
      | Side.below => mapsGo node_names rest (i + 1) (ab, be ++ [(i, c.level, c.anchor)])
    else mapsGo node_names rest (i + 1) (ab, be)

/-- The degraded fallback of `find_optimal_placement`: every annotation with a
node name placed below at level `2.0 + i` (1-based `i`), anchor `base west`. -/
def fallbackBelow (num_annotations : Nat) (node_names : Nat → Option (List Char)) :
    List (Nat × ℚ × Anchor) :=
  (List.range num_annotations).filterMap fun idx =>
    if (node_names (idx + 1)).isSome then
      some (idx + 1, (2 + ((idx + 1 : Nat) : ℚ), Anchor.baseWest))
    else none

/-- Embedding of `find_optimal_placement` (equations.py).  The pair is the
`(above_placements, below_placements)` result, as association lists in index
order; `none` = an uncaught exception from the validity check. -/
def find_optimal_placement (annotation_specs : List (List Char × List Char))
    (bounding_boxes : Nat → Option (ℚ × ℚ)) (node_positions : Nat → Option ℚ)
    (node_names : Nat → Option (List Char)) (page_width_pt horizontal_padding_pt : ℚ)
    (node_shifts : Nat → Option ℚ) (has_columns : Bool) :
    Option (List (Nat × ℚ × Anchor) × List (Nat × ℚ × Anchor)) :=
  match searchAux annotation_specs.length
      (fun combination => check_placement_validity combination bounding_boxes node_positions
        page_width_pt horizontal_padding_pt node_shifts has_columns) 5 1 with
  | none => none
  | some (some c) => some (mapsGo node_names c 1 ([], []))
  | some none => some ([], fallbackBelow annotation_specs.length node_names)

/-- Embedding of `parse_measurements_from_log` (equations.py).  The regex
extraction over the log text is abstracted by its per-index outcome:
`ann_matches i` is the parsed `(width, height)` when the `ANNOTATION<i>` line
is present in the log, `node_matches i` the parsed `(x, y)` when the
`NODEPOS<i>` line is present, and `baseline_match` the parsed baseline `y`
when the `BASELINEPOS` line is present (missing baseline falls back to `0.0`).
A missing annotation measurement is replaced by the default `(50.0, 12.0)`
extent; a missing node measurement leaves the position and shift dicts
without that key. -/
def parse_measurements_from_log (baseline_match : Option ℚ)
    (ann_matches node_matches : Nat → Option (ℚ × ℚ)) (num_annotations : Nat) :
    (Nat → Option (ℚ × ℚ)) × (Nat → Option ℚ) × (Nat → Option ℚ) :=
  let baseline_y := baseline_match.getD 0
  (fun i => if 1 ≤ i ∧ i ≤ num_annotations then some ((ann_matches i).getD (50, 12)) else none,
   fun i => if 1 ≤ i ∧ i ≤ num_annotations then (node_matches i).map Prod.fst else none,
   fun i => if 1 ≤ i ∧ i ≤ num_annotations then
      (node_matches i).map (fun p => p.2 - baseline_y) else none)

/-- Left edge of an annotation's horizontal span as the specification states
it: `x` for a leftward (`base west`) anchor, `x - width - padding` for a
rightward (`base east`) anchor. -/
def spanL (a : Anchor) (x width : ℚ) : ℚ :=
  match a with
  | Anchor.baseWest => x
  | Anchor.baseEast => x - (width + HORIZONTAL_PADDING_PT)

/-- Right edge of an annotation's horizontal span as the specification states
it: `x + width + padding` for `base west`, `x` for `base east`. -/
def spanR (a : Anchor) (x width : ℚ) : ℚ :=
  match a with
  | Anchor.baseWest => x + (width + HORIZONTAL_PADDING_PT)
  | Anchor.baseEast => x

/-- Test whether a combination gives two indices the same `(side, level)`
key. -/
def sameKeyAt (comb : List Candidate) (i j : Nat) : Bool :=
  match comb[i - 1]?, comb[j - 1]? with
  | some ci, some cj => decide (ci.side = cj.side ∧ ci.level = cj.level)
  | _, _ => false

/-- Python `s[i:i+len(pat)] == pat` together with `i <= len(s)`: whether `pat`
occurs in `s` at position `i` (a 0-length pattern matches at any position up
to `len(s)`, as in Python). -/
def matchesAt (s pat : List Char) (i : Nat) : Bool :=
  decide (i ≤ s.length) && decide ((s.drop i).take pat.length = pat)

/-- Python `s.find(pat, start)`: smallest match position `≥ start`, `none`
for `-1`. -/
def strFindFrom (s pat : List Char) (start : Nat) : Option Nat :=
  ((List.range (s.length + 1)).filter fun i => decide (start ≤ i) && matchesAt s pat i).head?

/-- Python `s.rfind(pat)`: largest match position, `none` for `-1`. -/
def strRfind (s pat : List Char) : Option Nat :=
  ((List.range (s.length + 1)).filter (matchesAt s pat)).getLast?

/-- The marker-opening pattern `"\tikzmarknode["` searched for by
`create_tikzmarknode_equation_new`. -/
def markerOpen : List Char := "\\tikzmarknode[".data

/-- The offset `len("\tikzmarknode\x7b")` at which the brace scan starts
(the source offsets by that literal's length, which equals
`markerOpen`'s). -/
def markerOpenLen : Nat := "\\tikzmarknode\x7b".data.length

/-- The brace-counting `for j in range(...)` loop of
`create_tikzmarknode_equation_new`.  `fuel` is the number of remaining range
positions (`stop - j`), `j` the current position, `count` the running
`brace_count`, `cstart` the `content_start` variable (`none` while
unassigned; a read of an unassigned `content_start` would raise, embedded as
outer `none`).  Returns `(inside_tikzmarknode, content_start)` on normal
exit or break. -/
def braceScanGo (s : List Char) (pos : Nat) :
    Nat → Nat → Int → Option Nat → Option (Bool × Option Nat)
  | 0, _, _, cstart => some (false, cstart)
  | fuel + 1, j, count, cstart =>
    if s.length ≤ j then some (false, cstart)
    else
      let ch := s.getD j ' '
      if ch = '\x7b' then
        let count1 := count + 1
        braceScanGo s pos fuel (j + 1) count1 (if count1 = 1 then some (j + 1) else cstart)
      else if ch = '\x7d' then
        let count1 := count - 1
        if count1 = 0 then
          match cstart with
          | none => none
          | some content_start => some (decide (content_start ≤ pos ∧ pos < j), cstart)
        else braceScanGo s pos fuel (j + 1) count1 cstart
      else braceScanGo s pos fuel (j + 1) count cstart

/-- The `while pos != -1` loop of `create_tikzmarknode_equation_new`, with
the current candidate position `pos`.  In the source, `content_start`
persists across loop iterations (and annotations); it is threaded here per
loop, which is observationally equal because the source reads it only right
after assigning it in the same brace scan.  `fuel` bounds the iteration
count; each reachable iteration strictly increases `pos`, which is bounded
by `s.length`, so the initial fuel `s.length + 1` is never exhausted on a
reachable path (exhaustion, like the source's divergence, yields `none`).
Result: `some (some p)` = the loop breaks accepting position `p`;
`some none` = `pos` became `-1` (leading to the `ValueError`);
`none` = no result. -/
def tryPosGo (s t : List Char) : Nat → Nat → Option Nat → Option (Option Nat)
  | 0, _, _ => none
  | fuel + 1, pos, cstart =>
    match strRfind (s.take pos) markerOpen with
    | none => some (some pos)
    | some last_node_start =>
      match braceScanGo s pos (pos + t.length - (last_node_start + markerOpenLen))
          (last_node_start + markerOpenLen) 0 cstart with
      | none => none
      | some (inside, cstart1) =>
        if inside then
          match strFindFrom s t (pos + t.length) with
          | none => some none
          | some pos1 => tryPosGo s t fuel pos1 cstart1
        else some (some pos)

/-- Search for the first occurrence of `t` in `s` that the nesting check
accepts: `pos = result.find(exact_string)` followed by the `while` loop. -/
def findValidPos (s t : List Char) : Option (Option Nat) :=
  match strFindFrom s t 0 with
  | none => some none
  | some pos => tryPosGo s t (s.length + 1) pos none

/-- The node name `f"node{node_counter}"`. -/
def nodeName (node_counter : Nat) : List Char :=
  "node".data ++ (Nat.repr node_counter).data

/-- The replacement text
`f"\tikzmarknode[fill=ncblue!15,inner sep=1pt,outer sep=0pt]{node_name}{exact_string\mathstrut}"`. -/
def wrappedMarker (node_name exact_string : List Char) : List Char :=
  "\\tikzmarknode[fill=ncblue!15,inner sep=1pt,outer sep=0pt]\x7b".data ++ node_name
    ++ "\x7d\x7b".data ++ exact_string ++ "\\mathstrut\x7d".data

/-- The `ValueError` message
`f"Annotation string '[[ {exact_string} ]]' not found in equation (or only found inside existing annotations)"`. -/
def targetNotFoundMsg (exact_string : List Char) : List Char :=
  "Annotation string \x27[[ ".data ++ exact_string
    ++ " ]]\x27 not found in equation (or only found inside existing annotations)".data

/-- Stable insertion step for
`sorted(enumerate(annotation_specs, 1), key=lambda x: len(x[1][0]), reverse=True)`:
an element is placed before the first element whose target is not strictly
longer, reproducing Python's stable descending sort. -/
def insertSpecDesc (a : Nat × List Char × List Char) :
    List (Nat × List Char × List Char) → List (Nat × List Char × List Char)
  | [] => [a]
  | b :: bs =>
    if a.2.1.length < b.2.1.length then b :: insertSpecDesc a bs else a :: b :: bs

/-- The stable length-descending sort of the 1-based enumerated
annotation specs. -/
def sortSpecsDesc : List (Nat × List Char × List Char) → List (Nat × List Char × List Char)
  | [] => []
  | a :: as => insertSpecDesc a (sortSpecsDesc as)

/-- The `for i, (exact_string, label) in sorted_specs` loop of
`create_tikzmarknode_equation_new`: find an accepted occurrence, wrap it,
record the node name under the original index, increment the counter.
`some (Except.error msg)` = the raised `ValueError`; outer `none` = no
result. -/
def taggerGo : List Char → List (Nat × List Char × List Char) → Nat →
    (Nat → Option (List Char)) →
    Option (Except (List Char) (List Char × (Nat → Option (List Char)) × Nat))
  | s, [], node_counter, node_names => some (Except.ok (s, node_names, node_counter))
  | s, (i, t, _) :: rest, node_counter, node_names =>
    match findValidPos s t with
    | none => none
    | some none => some (Except.error (targetNotFoundMsg t))
    | some (some pos) =>
      let counter1 := node_counter + 1
      let name := nodeName counter1
      taggerGo (s.take pos ++ wrappedMarker name t ++ s.drop (pos + t.length)) rest counter1
        (fun j => if j = i then some name else node_names j)

/-- Embedding of `create_tikzmarknode_equation_new` (equations.py): wrap each
annotation's target, processing annotations in stable descending order of
target length, naming nodes by a running counter keyed under the original
1-based index. -/
def create_tikzmarknode_equation_new (equation_content : List Char)
    (annotation_specs : List (List Char × List Char)) (node_counter : Nat) :
    Option (Except (List Char) (List Char × (Nat → Option (List Char)) × Nat)) :=
  taggerGo equation_content (sortSpecsDesc (List.enumFrom 1 annotation_specs)) node_counter
    fun _ => none

/-- Tagged-equation accessor for stating concrete evaluations of the
tagger. -/
def taggedString (r : Option (Except (List Char) (List Char × (Nat → Option (List Char)) × Nat))) :
    Option (List Char) :=
  match r with
  | some (Except.ok (s, _, _)) => some s
  | _ => none

/-- Node-name accessor for stating concrete evaluations of the tagger. -/
def taggedName (r : Option (Except (List Char) (List Char × (Nat → Option (List Char)) × Nat)))
    (i : Nat) : Option (List Char) :=
  match r with
  | some (Except.ok (_, m, _)) => m i
  | _ => none

/-- Counter accessor for stating concrete evaluations of the tagger. -/
def taggedCounter (r : Option (Except (List Char) (List Char × (Nat → Option (List Char)) × Nat))) :
    Option Nat :=
  match r with
  | some (Except.ok (_, _, c)) => some c
  | _ => none

/-- The entries that the result-building loop of `find_optimal_placement`
appends to the side `sd` map while scanning candidates from index `i`
upward. -/
def sideEntries (node_names : Nat → Option (List Char)) (sd : Side) :
    List Candidate → Nat → List (Nat × ℚ × Anchor)
  | [], _ => []
  | c :: rest, i =>
    (if (node_names i).isSome ∧ c.side = sd then [(i, c.level, c.anchor)] else [])
      ++ sideEntries node_names sd rest (i + 1)

/-! ### Concrete inputs used to instantiate the claims -/

/-- Two 50pt-wide labels anchored at x = 100 and x = 200. -/
def c1_bbs : Nat → Option (ℚ × ℚ) :=
  fun i => if i = 1 then some (50, 10) else if i = 2 then some (50, 10) else none

/-- Node positions for the first concrete instance. -/
def c1_nps : Nat → Option ℚ :=
  fun i => if i = 1 then some 100 else if i = 2 then some 200 else none

/-- Zero vertical shifts for two annotations. -/
def c1_shifts : Nat → Option ℚ := fun i => if i ≤ 2 then some 0 else none

/-- Two annotations whose 80pt labels at x = 100 and x = 120 always collide
on a shared (side, level). -/
def c2_specs : List (List Char × List Char) := [("a".data, "A".data), ("b".data, "B".data)]

/-- Bounding boxes of the colliding instance. -/
def c2_bbs : Nat → Option (ℚ × ℚ) :=
  fun i => if i = 1 then some (80, 10) else if i = 2 then some (80, 10) else none

/-- Node positions of the colliding instance. -/
def c2_nps : Nat → Option ℚ :=
  fun i => if i = 1 then some 100 else if i = 2 then some 120 else none

/-- Zero vertical shifts of the colliding instance. -/
def c2_shifts : Nat → Option ℚ := fun i => if i ≤ 2 then some 0 else none

/-- Node names of the colliding instance. -/
def c2_names : Nat → Option (List Char) :=
  fun i => if i = 1 then some "node1".data else if i = 2 then some "node2".data else none

/-- One annotation whose marker sits 3pt below the baseline. -/
def c3_specs : List (List Char × List Char) := [("a".data, "A".data)]

/-- Bounding box of the below-baseline instance. -/
def c3_bbs : Nat → Option (ℚ × ℚ) := fun i => if i = 1 then some (50, 10) else none

/-- Node position of the below-baseline instance. -/
def c3_nps : Nat → Option ℚ := fun i => if i = 1 then some 100 else none

/-- Negative vertical shift of the below-baseline instance. -/
def c3_shifts : Nat → Option ℚ := fun i => if i = 1 then some (-3) else none

/-- Node name of the below-baseline instance. -/
def c3_names : Nat → Option (List Char) :=
  fun i => if i = 1 then some "node1".data else none

/-- Two annotations whose 500pt labels can never fit the 455pt page. -/
def c4_specs : List (List Char × List Char) := [("a".data, "A".data), ("b".data, "B".data)]

/-- Oversized bounding boxes of the fallback instance. -/
def c4_bbs : Nat → Option (ℚ × ℚ) :=
  fun i => if 1 ≤ i ∧ i ≤ 2 then some (500, 10) else none

/-- Node positions of the fallback instance. -/
def c4_nps : Nat → Option ℚ :=
  fun i => if i = 1 then some 100 else if i = 2 then some 120 else none

/-- Zero vertical shifts of the fallback instance. -/
def c4_shifts : Nat → Option ℚ := fun i => if i ≤ 2 then some 0 else none

/-- Node names of the fallback instance. -/
def c4_names : Nat → Option (List Char) :=
  fun i => if i = 1 then some "node1".data else if i = 2 then some "node2".data else none

/-- A log whose `NODEPOS1` line is present (x = 100, y = 0) while the
`ANNOTATION1` line is missing. -/
def c8_node_matches : Nat → Option (ℚ × ℚ) := fun i => if i = 1 then some (100, 0) else none

/-- One annotation spec for the missing-measurement instance. -/
def c8_specs : List (List Char × List Char) := [("a".data, "A".data)]

/-- Node name for the missing-measurement instance. -/
def c8_names : Nat → Option (List Char) :=
  fun i => if i = 1 then some "node1".data else none

/-- One annotation spec for the exactly-one-side instance. -/
def c9_specs : List (List Char × List Char) := [("a".data, "A".data)]

/-- Bounding box for the exactly-one-side instance. -/
def c9_bbs : Nat → Option (ℚ × ℚ) := fun i => if i = 1 then some (50, 10) else none

/-- Node position for the exactly-one-side instance. -/
def c9_nps : Nat → Option ℚ := fun i => if i = 1 then some 100 else none

/-- Vertical shift for the exactly-one-side instance. -/
def c9_shifts : Nat → Option ℚ := fun i => if i = 1 then some (-3) else none

/-- Node name for the exactly-one-side instance. -/
def c9_names : Nat → Option (List Char) :=
  fun i => if i = 1 then some "node1".data else none

/-- One annotation spec for the determinism instance. -/
def c10_specs : List (List Char × List Char) := [("a".data, "A".data)]

/-- Bounding box for the determinism instance. -/
def c10_bbs : Nat → Option (ℚ × ℚ) := fun i => if i = 1 then some (50, 10) else none

/-- Node position for the determinism instance. -/
def c10_nps : Nat → Option ℚ := fun i => if i = 1 then some 100 else none

/-- Vertical shift for the determinism instance. -/
def c10_shifts : Nat → Option ℚ := fun i => if i = 1 then some 0 else none

/-- Node name for the determinism instance. -/
def c10_names : Nat → Option (List Char) :=
  fun i => if i = 1 then some "node1".data else none

/-- The accepted combination of the first concrete instance. -/
def c1_comb : List Candidate :=
  [⟨Side.below, 15, Anchor.baseWest⟩, ⟨Side.below, 15, Anchor.baseWest⟩]

/-- The combination the search accepts on the colliding instance. -/
def c2_comb : List Candidate :=
  [⟨Side.below, 15, Anchor.baseWest⟩, ⟨Side.above, 20, Anchor.baseWest⟩]

/-- The combination the search accepts on the below-baseline instance. -/
def c3_comb : List Candidate := [⟨Side.below, 15, Anchor.baseWest⟩]

/-- The combination the search accepts on the determinism instance. -/
def c10_comb : List Candidate := [⟨Side.below, 15, Anchor.baseWest⟩]

/-- A log with no `ANNOTATION<i>` line at all. -/
def c8_ann_matches : Nat → Option (ℚ × ℚ) := fun _ => none

/-- Invariant of the tagger's node-name map: every stored name is
`nodeName k` for some already-used counter value `k`, and no name is stored
under two different indices. -/
def NamesInv (m : Nat → Option (List Char)) (counter : Nat) : Prop :=
  (∀ i s, m i = some s → ∃ k, k ≤ counter ∧ s = nodeName k) ∧
  (∀ i j s, m i = some s → m j = some s → i = j)

/-- The node-name map produced on the two-annotation tagger instance. -/
def c6_names : Nat → Option (List Char) :=
  fun j => if j = 2 then some (nodeName 2) else if j = 1 then some (nodeName 1) else none

/-- The tagged equation produced on the two-annotation tagger instance. -/
def c6_res : List Char :=
  ("\\tikzmarknode[fill=ncblue!15,inner sep=1pt,outer sep=0pt]\x7bnode1\x7d\x7bW\\mathstrut\x7d"
    ++ "+"
    ++ "\\tikzmarknode[fill=ncblue!15,inner sep=1pt,outer sep=0pt]\x7bnode2\x7d\x7bV\\mathstrut\x7d"
    ++ "=q").data

/-- The nested output the tagger produces on equation `x+y=1` with targets
`x+y` and `x`: the second marker sits inside the first marker's content
braces. -/
def c5_res : List Char :=
  ("\\tikzmarknode[fill=ncblue!15,inner sep=1pt,outer sep=0pt]\x7bnode1\x7d\x7b"
    ++ "\\tikzmarknode[fill=ncblue!15,inner sep=1pt,outer sep=0pt]\x7bnode2\x7d\x7bx\\mathstrut\x7d"
    ++ "+y\\mathstrut\x7d=1").data

/-! ### Lemmas about the stable sort and the adjacency check -/

theorem mem_insertByLeft {e a : Entry} {l : List Entry} :
    a ∈ insertByLeft e l ↔ a = e ∨ a ∈ l := by
  induction l with
  | nil => simp [insertByLeft]
  | cons b bs ih =>
    simp only [insertByLeft]
    by_cases h : b.left < e.left
    · simp only [if_pos h, List.mem_cons, ih]
      tauto
    · simp only [if_neg h, List.mem_cons]

theorem mem_sortByLeft {a : Entry} {l : List Entry} : a ∈ sortByLeft l ↔ a ∈ l := by
  induction l with
  | nil => simp [sortByLeft]
  | cons b bs ih => simp [sortByLeft, mem_insertByLeft, ih]

theorem pairwise_insertByLeft {e : Entry} {l : List Entry}
    (h : l.Pairwise fun a b => a.left ≤ b.left) :
    (insertByLeft e l).Pairwise fun a b => a.left ≤ b.left := by
  induction l with
  | nil => simp [insertByLeft]
  | cons b bs ih =>
    rcases List.pairwise_cons.1 h with ⟨hb, hbs⟩
    simp only [insertByLeft]
    by_cases hlt : b.left < e.left
    · simp only [if_pos hlt]
      refine List.pairwise_cons.2 ⟨?_, ih hbs⟩
      intro x hx
      rcases mem_insertByLeft.1 hx with rfl | hx
      · exact le_of_lt hlt
      · exact hb x hx
    · simp only [if_neg hlt]
      refine List.pairwise_cons.2 ⟨?_, h⟩
      intro x hx
      rcases List.mem_cons.1 hx with rfl | hx
      · exact not_lt.1 hlt
      · exact le_trans (not_lt.1 hlt) (hb x hx)

theorem pairwise_sortByLeft (l : List Entry) :
    (sortByLeft l).Pairwise fun a b => a.left ≤ b.left := by
  induction l with
  | nil => simp [sortByLeft]
  | cons b bs ih => exact pairwise_insertByLeft ih

theorem adjacentOk_pairwise {l : List Entry}
    (hs : l.Pairwise fun a b => a.left ≤ b.left) (h : adjacentOk l = true) :
    l.Pairwise fun a b => a.right ≤ b.left := by
  induction l with
  | nil => simp
  | cons a rest ih =>
    cases rest with
    | nil => simp
    | cons b bs =>
      simp only [adjacentOk] at h
      by_cases hab : a.right > b.left
      · simp [if_pos hab] at h
      · simp only [if_neg hab] at h
        rcases List.pairwise_cons.1 hs with ⟨ha, hs1⟩
        refine List.pairwise_cons.2 ⟨?_, ih hs1 h⟩
        intro x hx
        rcases List.mem_cons.1 hx with rfl | hx
        · exact not_lt.1 hab
        · exact le_trans (not_lt.1 hab) ((List.pairwise_cons.1 hs1).1 x hx)

theorem pairwise_or {α : Type} {R : α → α → Prop} {l : List α} (h : l.Pairwise R)
    {a b : α} (ha : a ∈ l) (hb : b ∈ l) (hab : a ≠ b) : R a b ∨ R b a := by
  induction l with
  | nil => cases ha
  | cons x xs ih =>
    rcases List.pairwise_cons.1 h with ⟨hx, hxs⟩
    rcases List.mem_cons.1 ha with rfl | ha1
    · rcases List.mem_cons.1 hb with rfl | hb1
      · exact absurd rfl hab
      · exact Or.inl (hx b hb1)
    · rcases List.mem_cons.1 hb with rfl | hb1
      · exact Or.inr (hx a ha1)
      · exact ih hxs ha1 hb1

theorem boundsOk_mem {margin pw : ℚ} {l : List Entry} (h : boundsOk margin pw l = true)
    {e : Entry} (he : e ∈ l) : margin ≤ e.left ∧ e.right ≤ pw := by
  have := List.all_eq_true.1 h e he
  simp only [Bool.not_eq_true', Bool.or_eq_false_iff, decide_eq_false_iff_not, not_lt] at this
  exact this

/-! ### Lemmas about the bucket association list -/

theorem addToGroups_keys {gs : List ((Side × ℚ) × List Entry)} {k k1 : Side × ℚ} {e : Entry}
    (h : k1 ∈ (addToGroups gs k e).map Prod.fst) : k1 ∈ gs.map Prod.fst ∨ k1 = k := by
  induction gs with
  | nil => simpa [addToGroups] using h
  | cons p rest ih =>
    obtain ⟨k', es⟩ := p
    simp only [addToGroups] at h
    by_cases hk : k' = k
    · simp only [if_pos hk, List.map_cons, List.mem_cons] at h
      rcases h with rfl | h
      · exact Or.inl (by simp)
      · exact Or.inl (by simp [h])
    · simp only [if_neg hk, List.map_cons, List.mem_cons] at h
      rcases h with rfl | h
      · exact Or.inl (by simp)
      · rcases ih h with h1 | h1
        · exact Or.inl (by simp [h1])
        · exact Or.inr h1

theorem addToGroups_keys_nodup {gs : List ((Side × ℚ) × List Entry)} {k : Side × ℚ} {e : Entry}
    (h : (gs.map Prod.fst).Nodup) : ((addToGroups gs k e).map Prod.fst).Nodup := by
  induction gs with
  | nil => simp [addToGroups]
  | cons p rest ih =>
    obtain ⟨k', es⟩ := p
    simp only [List.map_cons, List.nodup_cons] at h
    simp only [addToGroups]
    by_cases hk : k' = k
    · simp only [if_pos hk, List.map_cons, List.nodup_cons]
      exact h
    · simp only [if_neg hk, List.map_cons, List.nodup_cons]
      refine ⟨fun hmem => ?_, ih h.2⟩
      rcases addToGroups_keys hmem with h1 | h1
      · exact h.1 h1
      · exact hk h1

theorem keys_nodup_functional {gs : List ((Side × ℚ) × List Entry)}
    (h : (gs.map Prod.fst).Nodup) {k : Side × ℚ} {g1 g2 : List Entry}
    (h1 : (k, g1) ∈ gs) (h2 : (k, g2) ∈ gs) : g1 = g2 := by
  induction gs with
  | nil => cases h1
  | cons p rest ih =>
    simp only [List.map_cons, List.nodup_cons] at h
    rcases List.mem_cons.1 h1 with rfl | h1r
    · rcases List.mem_cons.1 h2 with h2h | h2r
      · have : g2 = g1 := by simpa using h2h
        exact this.symm
      · exact absurd (List.mem_map_of_mem Prod.fst h2r) (by simpa using h.1)
    · rcases List.mem_cons.1 h2 with rfl | h2r
      · exact absurd (List.mem_map_of_mem Prod.fst h1r) (by simpa using h.1)
      · exact ih h.2 h1r h2r

theorem addToGroups_mem_new {gs : List ((Side × ℚ) × List Entry)} {k : Side × ℚ} {e : Entry} :
    ∃ g, (k, g) ∈ addToGroups gs k e ∧ e ∈ g := by
  induction gs with
  | nil => exact ⟨[e], by simp [addToGroups]⟩
  | cons p rest ih =>
    obtain ⟨k', es⟩ := p
    simp only [addToGroups]
    by_cases hk : k' = k
    · subst hk
      exact ⟨es ++ [e], by simp⟩
    · obtain ⟨g, hg, hge⟩ := ih
      exact ⟨g, by simp [hk, hg], hge⟩

theorem addToGroups_mem_old {gs : List ((Side × ℚ) × List Entry)} {k k0 : Side × ℚ}
    {e x : Entry} {g : List Entry} (h : (k0, g) ∈ gs) (hx : x ∈ g) :
    ∃ g1, (k0, g1) ∈ addToGroups gs k e ∧ x ∈ g1 := by
  induction gs with
  | nil => cases h
  | cons p rest ih =>
    obtain ⟨k', es⟩ := p
    simp only [addToGroups]
    by_cases hk : k' = k
    · rcases List.mem_cons.1 h with heq | hr
      · obtain ⟨h1, h2⟩ : k0 = k' ∧ g = es := by simpa using heq
        subst h1
        subst h2
        exact ⟨g ++ [e], by simp [hk], by simp [hx]⟩
      · exact ⟨g, by simp [hk, hr], hx⟩
    · rcases List.mem_cons.1 h with heq | hr
      · obtain ⟨h1, h2⟩ : k0 = k' ∧ g = es := by simpa using heq
        subst h1
        subst h2
        exact ⟨g, by simp [hk], hx⟩
      · obtain ⟨g1, hg1, hxg1⟩ := ih hr
        exact ⟨g1, by simp [hk, hg1], hxg1⟩

/-! ### Lemmas about the first loop of the validity check -/

theorem buildGroups_shift {bbs : Nat → Option (ℚ × ℚ)} {nps : Nat → Option ℚ} {pad : ℚ}
    {shifts : Nat → Option ℚ} {l : List Candidate} {i0 : Nat}
    {acc gs : List ((Side × ℚ) × List Entry)}
    (h : buildGroups bbs nps pad shifts l i0 acc = some (some gs)) :
    ∀ idx cd, l[idx]? = some cd →
      ∃ sh, shifts (i0 + idx) = some sh ∧ ¬(sh < 0 ∧ cd.side = Side.above) ∧
        ¬(sh > 0 ∧ cd.side = Side.below) := by
  induction l generalizing i0 acc with
  | nil => intro idx cd hcd; simp at hcd
  | cons c rest ih =>
    intro idx cd hcd
    cases hsh : shifts i0 with
    | none => simp [buildGroups, hsh] at h
    | some sh =>
      simp only [buildGroups, hsh] at h
      by_cases h1 : sh < 0 ∧ c.side = Side.above
      · rw [if_pos h1] at h; simp at h
      · rw [if_neg h1] at h
        by_cases h2 : sh > 0 ∧ c.side = Side.below
        · rw [if_pos h2] at h; simp at h
        · rw [if_neg h2] at h
          cases idx with
          | zero =>
            have hc : c = cd := by simpa using hcd
            subst hc
            exact ⟨sh, by simpa using hsh, h1, h2⟩
          | succ idx1 =>
            have hcd1 : rest[idx1]? = some cd := by simpa using hcd
            have harith : i0 + (idx1 + 1) = i0 + 1 + idx1 := by omega
            rw [harith]
            cases hb : bbs i0 <;> cases hn : nps i0 <;> simp only [hb, hn] at h <;>
              exact ih h idx1 cd hcd1

theorem buildGroups_acc_sub {bbs : Nat → Option (ℚ × ℚ)} {nps : Nat → Option ℚ} {pad : ℚ}
    {shifts : Nat → Option ℚ} {l : List Candidate} {i0 : Nat}
    {acc gs : List ((Side × ℚ) × List Entry)}
    (h : buildGroups bbs nps pad shifts l i0 acc = some (some gs)) :
    ∀ {k : Side × ℚ} {g : List Entry} {x : Entry}, (k, g) ∈ acc → x ∈ g →
      ∃ g1, (k, g1) ∈ gs ∧ x ∈ g1 := by
  induction l generalizing i0 acc with
  | nil =>
    intro k g x hg hx
    have : acc = gs := by simpa [buildGroups] using h
    exact ⟨g, this ▸ hg, hx⟩
  | cons c rest ih =>
    intro k g x hg hx
    cases hsh : shifts i0 with
    | none => simp [buildGroups, hsh] at h
    | some sh =>
      simp only [buildGroups, hsh] at h
      by_cases h1 : sh < 0 ∧ c.side = Side.above
      · rw [if_pos h1] at h; simp at h
      · rw [if_neg h1] at h
        by_cases h2 : sh > 0 ∧ c.side = Side.below
        · rw [if_pos h2] at h; simp at h
        · rw [if_neg h2] at h
          cases hb : bbs i0 <;> cases hn : nps i0 <;> simp only [hb, hn] at h
          · exact ih h hg hx
          · exact ih h hg hx
          · exact ih h hg hx
          · obtain ⟨g1, hg1, hx1⟩ := addToGroups_mem_old hg hx
            exact ih h hg1 hx1


theorem buildGroups_mem {bbs : Nat → Option (ℚ × ℚ)} {nps : Nat → Option ℚ} {pad : ℚ}
    {shifts : Nat → Option ℚ} {l : List Candidate} {i0 : Nat}
    {acc gs : List ((Side × ℚ) × List Entry)}
    (h : buildGroups bbs nps pad shifts l i0 acc = some (some gs)) :
    ∀ idx cd wh x, l[idx]? = some cd → bbs (i0 + idx) = some wh → nps (i0 + idx) = some x →
      ∃ g, ((cd.side, cd.level), g) ∈ gs ∧ entryFor pad (i0 + idx) cd wh x ∈ g := by
  induction l generalizing i0 acc with
  | nil => intro idx cd wh x hcd; simp at hcd
  | cons c rest ih =>
    intro idx cd wh x hcd hwh hx
    cases hsh : shifts i0 with
    | none => simp [buildGroups, hsh] at h
    | some sh =>
      simp only [buildGroups, hsh] at h
      by_cases h1 : sh < 0 ∧ c.side = Side.above
      · rw [if_pos h1] at h; simp at h
      · rw [if_neg h1] at h
        by_cases h2 : sh > 0 ∧ c.side = Side.below
        · rw [if_pos h2] at h; simp at h
        · rw [if_neg h2] at h
          cases idx with
          | zero =>
            have hc : c = cd := by simpa using hcd
            subst hc
            rw [Nat.add_zero] at hwh hx ⊢
            rw [hwh, hx] at h
            obtain ⟨g0, hg0, he0⟩ :=
              @addToGroups_mem_new acc (c.side, c.level) (entryFor pad i0 c wh x)
            exact buildGroups_acc_sub h hg0 he0
          | succ idx1 =>
            have hcd1 : rest[idx1]? = some cd := by simpa using hcd
            have harith : i0 + (idx1 + 1) = i0 + 1 + idx1 := by omega
            rw [harith] at hwh hx ⊢
            cases hb : bbs i0 <;> cases hn : nps i0 <;> simp only [hb, hn] at h <;>
              exact ih h idx1 cd wh x hcd1 hwh hx

theorem buildGroups_keys_nodup {bbs : Nat → Option (ℚ × ℚ)} {nps : Nat → Option ℚ} {pad : ℚ}
    {shifts : Nat → Option ℚ} {l : List Candidate} {i0 : Nat}
    {acc gs : List ((Side × ℚ) × List Entry)}
    (h : buildGroups bbs nps pad shifts l i0 acc = some (some gs))
    (hacc : (acc.map Prod.fst).Nodup) : (gs.map Prod.fst).Nodup := by
  induction l generalizing i0 acc with
  | nil =>
    have : acc = gs := by simpa [buildGroups] using h
    exact this ▸ hacc
  | cons c rest ih =>
    cases hsh : shifts i0 with
    | none => simp [buildGroups, hsh] at h
    | some sh =>
      simp only [buildGroups, hsh] at h
      by_cases h1 : sh < 0 ∧ c.side = Side.above
      · rw [if_pos h1] at h; simp at h
      · rw [if_neg h1] at h
        by_cases h2 : sh > 0 ∧ c.side = Side.below
        · rw [if_pos h2] at h; simp at h
        · rw [if_neg h2] at h
          cases hb : bbs i0 <;> cases hn : nps i0 <;> simp only [hb, hn] at h
          · exact ih h hacc
          · exact ih h hacc
          · exact ih h hacc
          · exact ih h (addToGroups_keys_nodup hacc)

/-! ### Elimination lemmas for an accepted combination -/

theorem check_true_buildGroups {comb : List Candidate} {bbs : Nat → Option (ℚ × ℚ)}
    {nps : Nat → Option ℚ} {pw pad : ℚ} {shifts : Nat → Option ℚ} {cols : Bool}
    (h : check_placement_validity comb bbs nps pw pad shifts cols = some true) :
    ∃ gs, buildGroups bbs nps pad shifts comb 1 [] = some (some gs) := by
  cases hb : buildGroups bbs nps pad shifts comb 1 [] with
  | none => simp [check_placement_validity, hb] at h
  | some o =>
    cases o with
    | none => simp [check_placement_validity, hb] at h
    | some gs => exact ⟨gs, rfl⟩

theorem check_true_elim {comb : List Candidate} {bbs : Nat → Option (ℚ × ℚ)}
    {nps : Nat → Option ℚ} {pw pad : ℚ} {shifts : Nat → Option ℚ} {cols : Bool}
    {gs : List ((Side × ℚ) × List Entry)}
    (hb : buildGroups bbs nps pad shifts comb 1 [] = some (some gs))
    (h : check_placement_validity comb bbs nps pw pad shifts cols = some true) :
    (∀ g ∈ gs, adjacentOk (sortByLeft g.2) = true ∧
      boundsOk (left_margin cols) pw g.2 = true) ∧
    crossingViolation nps gs = false := by
  simp only [check_placement_validity, hb, Option.some.injEq, Bool.and_eq_true] at h
  refine ⟨fun g hg => ?_, by simpa using h.2⟩
  have := List.all_eq_true.1 h.1 g hg
  rw [Bool.and_eq_true] at this
  exact this

theorem entryFor_fields (i : Nat) (c : Candidate) (wh : ℚ × ℚ) (x : ℚ) :
    (entryFor HORIZONTAL_PADDING_PT i c wh x).idx = i ∧
    (entryFor HORIZONTAL_PADDING_PT i c wh x).left = spanL c.anchor x wh.1 ∧
    (entryFor HORIZONTAL_PADDING_PT i c wh x).right = spanR c.anchor x wh.1 := by
  cases hc : c.anchor <;> simp [entryFor, spanL, spanR, hc, one_mul]

/-- C1: for a combination in which the relevant annotation indices have a
measured bounding box and node position, the validity check accepts the
combination only if, within each (side, level) group, the horizontal
spans — `[x, x + width + padding]` for a leftward-anchored `base west` label
and `[x - width - padding, x]` for a rightward-anchored `base east` label —
are pairwise non-overlapping, and every span lies within
`[left_margin, usable_width]`, where the usable width is 455pt in
single-column mode and `(455 - 20)/2` pt in multi-column mode and the left
margin is smaller in multi-column mode (5pt) than in single-column mode
(20pt). -/
theorem claim_C1 (combination : List Candidate) (bounding_boxes : Nat → Option (ℚ × ℚ))
    (node_positions : Nat → Option ℚ) (node_shifts : Nat → Option ℚ) (has_columns : Bool)
    (hacc : check_placement_validity combination bounding_boxes node_positions
      (PAGE_WIDTH_PT has_columns) HORIZONTAL_PADDING_PT node_shifts has_columns = some true) :
    (∀ i j ci cj wi xi wj xj, 1 ≤ i → 1 ≤ j → i ≠ j →
      combination[i - 1]? = some ci → combination[j - 1]? = some cj →
      ci.side = cj.side → ci.level = cj.level →
      bounding_boxes i = some wi → node_positions i = some xi →
      bounding_boxes j = some wj → node_positions j = some xj →
      spanR ci.anchor xi wi.1 ≤ spanL cj.anchor xj wj.1 ∨
        spanR cj.anchor xj wj.1 ≤ spanL ci.anchor xi wi.1) ∧
    (∀ i ci wi xi, 1 ≤ i → combination[i - 1]? = some ci →
      bounding_boxes i = some wi → node_positions i = some xi →
      left_margin has_columns ≤ spanL ci.anchor xi wi.1 ∧
        spanR ci.anchor xi wi.1 ≤ PAGE_WIDTH_PT has_columns) ∧
    left_margin true < left_margin false ∧
    PAGE_WIDTH_PT true = (455 - 20) / 2 ∧ PAGE_WIDTH_PT false = 455 := by
  obtain ⟨gs, hb⟩ := check_true_buildGroups hacc
  obtain ⟨hlevels, _⟩ := check_true_elim hb hacc
  have hnodup := buildGroups_keys_nodup hb (by simp)
  refine ⟨?_, ?_, by norm_num [left_margin], by simp [PAGE_WIDTH_PT, BASE_WIDTH_PT],
    by simp [PAGE_WIDTH_PT, BASE_WIDTH_PT]⟩
  · intro i j ci cj wi xi wj xj hi hj hij hci hcj hside hlevel hwi hxi hwj hxj
    have e1 : 1 + (i - 1) = i := by omega
    have e2 : 1 + (j - 1) = j := by omega
    obtain ⟨gi, hgi, hei⟩ := buildGroups_mem hb (i - 1) ci wi xi hci
      (by rw [e1]; exact hwi) (by rw [e1]; exact hxi)
    obtain ⟨gj, hgj, hej⟩ := buildGroups_mem hb (j - 1) cj wj xj hcj
      (by rw [e2]; exact hwj) (by rw [e2]; exact hxj)
    rw [e1] at hei
    rw [e2] at hej
    have hkey : (ci.side, ci.level) = (cj.side, cj.level) := by rw [hside, hlevel]
    rw [hkey] at hgi
    have hgeq : gi = gj := keys_nodup_functional hnodup hgi hgj
    subst hgeq
    have hEi := entryFor_fields i ci wi xi
    have hEj := entryFor_fields j cj wj xj
    have hne : entryFor HORIZONTAL_PADDING_PT i ci wi xi ≠
        entryFor HORIZONTAL_PADDING_PT j cj wj xj := by
      intro hEq
      exact hij (by rw [← hEi.1, ← hEj.1, hEq])
    have hadj := adjacentOk_pairwise (pairwise_sortByLeft gi)
      (hlevels ((cj.side, cj.level), gi) hgj).1
    rcases pairwise_or hadj (mem_sortByLeft.2 hei) (mem_sortByLeft.2 hej) hne with hc | hc
    · exact Or.inl (hEi.2.2 ▸ hEj.2.1 ▸ hc)
    · exact Or.inr (hEj.2.2 ▸ hEi.2.1 ▸ hc)
  · intro i ci wi xi hi hci hwi hxi
    have e1 : 1 + (i - 1) = i := by omega
    obtain ⟨gi, hgi, hei⟩ := buildGroups_mem hb (i - 1) ci wi xi hci
      (by rw [e1]; exact hwi) (by rw [e1]; exact hxi)
    rw [e1] at hei
    have hbm := boundsOk_mem (hlevels ((ci.side, ci.level), gi) hgi).2 hei
    have hEi := entryFor_fields i ci wi xi
    exact ⟨hEi.2.1 ▸ hbm.1, hEi.2.2 ▸ hbm.2⟩

/-! ### Lemmas about the first-fit search -/

theorem findValidCombo_eq_some {check : List Candidate → Option Bool}
    {l : List (List Candidate)} {c : List Candidate}
    (h : findValidCombo check l = some (some c)) :
    ∃ pre post, l = pre ++ c :: post ∧ (∀ x ∈ pre, check x = some false) ∧
      check c = some true := by
  induction l with
  | nil => simp [findValidCombo] at h
  | cons a rest ih =>
    cases hc : check a with
    | none => simp [findValidCombo, hc] at h
    | some b =>
      cases b with
      | true =>
        have : a = c := by simpa [findValidCombo, hc] using h
        subst this
        exact ⟨[], rest, rfl, by simp, hc⟩
      | false =>
        have h1 : findValidCombo check rest = some (some c) := by
          simpa [findValidCombo, hc] using h
        obtain ⟨pre, post, heq, hpre, hcheck⟩ := ih h1
        refine ⟨a :: pre, post, by rw [heq]; rfl, ?_, hcheck⟩
        intro x hx
        rcases List.mem_cons.1 hx with rfl | hx
        · exact hc
        · exact hpre x hx

theorem findValidCombo_all_false {check : List Candidate → Option Bool}
    {l : List (List Candidate)} (h : ∀ x ∈ l, check x = some false) :
    findValidCombo check l = some none := by
  induction l with
  | nil => simp [findValidCombo]
  | cons a rest ih =>
    have ha := h a (by simp)
    simp only [findValidCombo, ha]
    exact ih fun x hx => h x (by simp [hx])

theorem findValidCombo_none_all {check : List Candidate → Option Bool}
    {l : List (List Candidate)} (h : findValidCombo check l = some none) :
    ∀ x ∈ l, check x = some false := by
  induction l with
  | nil => simp
  | cons a rest ih =>
    intro x hx
    cases hc : check a with
    | none => simp [findValidCombo, hc] at h
    | some b =>
      cases b with
      | true => simp [findValidCombo, hc] at h
      | false =>
        have h1 : findValidCombo check rest = some none := by
          simpa [findValidCombo, hc] using h
        rcases List.mem_cons.1 hx with rfl | hx
        · exact hc
        · exact ih h1 x hx

theorem searchAux_eq_some {n : Nat} {check : List Candidate → Option Bool}
    {fuel k : Nat} {c : List Candidate}
    (h : searchAux n check fuel k = some (some c)) :
    ∃ pre post,
      ((List.range' k fuel).flatMap fun j =>
        generate_placement_combinations n [20] (levelsBelow j)) = pre ++ c :: post ∧
      (∀ x ∈ pre, check x = some false) ∧ check c = some true := by
  induction fuel generalizing k with
  | zero => simp [searchAux] at h
  | succ fuel ih =>
    cases hf : findValidCombo check (generate_placement_combinations n [20] (levelsBelow k)) with
    | none => simp [searchAux, hf] at h
    | some o =>
      cases o with
      | some c1 =>
        have hcc : c1 = c := by simpa [searchAux, hf] using h
        subst hcc
        obtain ⟨pre, post, heq, hpre, hc⟩ := findValidCombo_eq_some hf
        refine ⟨pre, post ++ (List.range' (k + 1) fuel).flatMap
          (fun j => generate_placement_combinations n [20] (levelsBelow j)), ?_, hpre, hc⟩
        rw [List.range'_succ, List.flatMap_cons, heq]
        simp [List.append_assoc]
      | none =>
        have h1 : searchAux n check fuel (k + 1) = some (some c) := by
          simpa [searchAux, hf] using h
        obtain ⟨pre, post, heq, hpre, hc⟩ := ih h1
        refine ⟨generate_placement_combinations n [20] (levelsBelow k) ++ pre, post, ?_, ?_, hc⟩
        · rw [List.range'_succ, List.flatMap_cons, heq, List.append_assoc]
        · intro x hx
          rcases List.mem_append.1 hx with hx | hx
          · exact findValidCombo_none_all hf x hx
          · exact hpre x hx

theorem searchAux_all_false {n : Nat} {check : List Candidate → Option Bool} {fuel k : Nat}
    (h : ∀ j, k ≤ j → j < k + fuel →
      ∀ c ∈ generate_placement_combinations n [20] (levelsBelow j), check c = some false) :
    searchAux n check fuel k = some none := by
  induction fuel generalizing k with
  | zero => simp [searchAux]
  | succ fuel ih =>
    have hk : findValidCombo check (generate_placement_combinations n [20] (levelsBelow k))
        = some none :=
      findValidCombo_all_false fun c hc => h k (le_refl _) (by omega) c hc
    simp only [searchAux, hk]
    exact ih fun j hj1 hj2 c hc => h j (by omega) (by omega) c hc

theorem listProduct_length {α : Type} {ls : List (List α)} {c : List α}
    (h : c ∈ listProduct ls) : c.length = ls.length := by
  induction ls generalizing c with
  | nil =>
    simp only [listProduct, List.mem_singleton] at h
    simp [h]
  | cons xs rest ih =>
    simp only [listProduct, List.mem_flatMap, List.mem_map] at h
    obtain ⟨x, hx, c1, hc1, rfl⟩ := h
    simp [ih hc1]

theorem combos_length {n : Nat} {la lb : List ℚ} {c : List Candidate}
    (h : c ∈ generate_placement_combinations n la lb) : c.length = n := by
  have h2 : c ∈ listProduct (List.replicate n (annotationOptions la lb)) := h
  have h3 := listProduct_length h2
  simpa using h3

/-! ### Lemmas about the result maps and the fallback -/

theorem mapsGo_eq (node_names : Nat → Option (List Char)) (l : List Candidate) (i : Nat)
    (ab be : List (Nat × ℚ × Anchor)) :
    mapsGo node_names l i (ab, be) =
      (ab ++ sideEntries node_names Side.above l i,
       be ++ sideEntries node_names Side.below l i) := by
  induction l generalizing i ab be with
  | nil => simp [mapsGo, sideEntries]
  | cons c rest ih =>
    by_cases hn : (node_names i).isSome
    · cases hs : c.side
      · simp [mapsGo, sideEntries, hn, hs, ih, List.append_assoc]
      · simp [mapsGo, sideEntries, hn, hs, ih, List.append_assoc]
    · simp [mapsGo, sideEntries, hn, ih]

theorem mem_sideEntries {node_names : Nat → Option (List Char)} {sd : Side}
    {l : List Candidate} {i0 j : Nat} {v : ℚ × Anchor} :
    (j, v) ∈ sideEntries node_names sd l i0 ↔
      ∃ cd, i0 ≤ j ∧ l[j - i0]? = some cd ∧ cd.side = sd ∧ (node_names j).isSome ∧
        v = (cd.level, cd.anchor) := by
  induction l generalizing i0 with
  | nil => simp [sideEntries]
  | cons c rest ih =>
    simp only [sideEntries, List.mem_append]
    constructor
    · intro h
      rcases h with h | h
      · by_cases hcond : (node_names i0).isSome ∧ c.side = sd
        · rw [if_pos hcond] at h
          obtain ⟨h1, h2⟩ : j = i0 ∧ v = (c.level, c.anchor) := by simpa using h
          subst h1
          exact ⟨c, le_refl _, by simp, hcond.2, hcond.1, h2⟩
        · rw [if_neg hcond] at h
          cases h
      · obtain ⟨cd, hij, hget, hside, hn, hv⟩ := ih.1 h
        refine ⟨cd, by omega, ?_, hside, hn, hv⟩
        have he : j - i0 = (j - (i0 + 1)) + 1 := by omega
        rw [he]
        simpa using hget
    · rintro ⟨cd, hij, hget, hside, hn, hv⟩
      rcases Nat.eq_or_lt_of_le hij with heq | hlt
      · subst heq
        have hc : c = cd := by simpa using hget
        subst hc
        exact Or.inl (by rw [if_pos ⟨hn, hside⟩]; simp [hv])
      · refine Or.inr (ih.2 ⟨cd, by omega, ?_, hside, hn, hv⟩)
        have he : j - i0 = (j - (i0 + 1)) + 1 := by omega
        rw [he] at hget
        simpa using hget

theorem mem_fallbackBelow {n : Nat} {node_names : Nat → Option (List Char)} {j : Nat}
    {v : ℚ × Anchor} :
    (j, v) ∈ fallbackBelow n node_names ↔
      1 ≤ j ∧ j ≤ n ∧ (node_names j).isSome ∧ v = (2 + (j : ℚ), Anchor.baseWest) := by
  simp only [fallbackBelow, List.mem_filterMap, List.mem_range]
  constructor
  · rintro ⟨idx, hidx, hopt⟩
    by_cases hn : (node_names (idx + 1)).isSome
    · rw [if_pos hn] at hopt
      obtain ⟨h1, h2⟩ : idx + 1 = j ∧ (2 + ((idx + 1 : Nat) : ℚ), Anchor.baseWest) = v := by
        simpa using hopt
      subst h1
      exact ⟨by omega, by omega, hn, h2.symm⟩
    · rw [if_neg hn] at hopt
      cases hopt
  · rintro ⟨h1, h2, hn, rfl⟩
    refine ⟨j - 1, by omega, ?_⟩
    have he : j - 1 + 1 = j := by omega
    rw [he, if_pos hn]

theorem filterMap_all_some {α β : Type} {f : α → Option β} {g : α → β} {l : List α}
    (h : ∀ x ∈ l, f x = some (g x)) : l.filterMap f = l.map g := by
  induction l with
  | nil => simp
  | cons a as ih => simp [h a (by simp), ih fun x hx => h x (by simp [hx])]

theorem fallbackBelow_total {n : Nat} {node_names : Nat → Option (List Char)}
    (h : ∀ i, 1 ≤ i → i ≤ n → (node_names i).isSome) :
    fallbackBelow n node_names =
      (List.range n).map fun idx => (idx + 1, (2 + ((idx + 1 : Nat) : ℚ), Anchor.baseWest)) := by
  unfold fallbackBelow
  exact filterMap_all_some fun idx hidx =>
    if_pos (h (idx + 1) (by omega) (by have := List.mem_range.1 hidx; omega))

theorem fallbackBelow_pairwise {n : Nat} {node_names : Nat → Option (List Char)}
    (h : ∀ i, 1 ≤ i → i ≤ n → (node_names i).isSome) :
    (fallbackBelow n node_names).Pairwise fun a b => a.2.1 < b.2.1 := by
  rw [fallbackBelow_total h]
  refine List.Pairwise.map _ ?_ (List.pairwise_lt_range n)
  intro a b hab
  have hc : ((a + 1 : Nat) : ℚ) < ((b + 1 : Nat) : ℚ) := by
    exact_mod_cast by omega
  simpa using by linarith

theorem mem_keys_iff {l : List (Nat × ℚ × Anchor)} {i : Nat} :
    i ∈ l.map Prod.fst ↔ ∃ v, (i, v) ∈ l := by
  simp only [List.mem_map]
  constructor
  · rintro ⟨⟨a, v⟩, hm, rfl⟩
    exact ⟨v, hm⟩
  · rintro ⟨v, hm⟩
    exact ⟨(i, v), hm, rfl⟩

/-- C2: if two annotation indices can never both satisfy the validity check
while sharing the same (side, level) key — over the whole widening search
space — then any validated (non-fallback) assignment returned by the search
places them on different levels or different sides, both in the accepted
combination and in the returned maps. -/
theorem claim_C2 (annotation_specs : List (List Char × List Char))
    (bounding_boxes : Nat → Option (ℚ × ℚ)) (node_positions : Nat → Option ℚ)
    (node_names : Nat → Option (List Char)) (page_width_pt horizontal_padding_pt : ℚ)
    (node_shifts : Nat → Option ℚ) (has_columns : Bool) (i j : Nat) (c : List Candidate)
    (hij : i ≠ j)
    (hH : ∀ k, k < 6 → 1 ≤ k →
      ∀ comb ∈ generate_placement_combinations annotation_specs.length [20] (levelsBelow k),
        sameKeyAt comb i j = true →
        check_placement_validity comb bounding_boxes node_positions page_width_pt
          horizontal_padding_pt node_shifts has_columns ≠ some true)
    (hfound : searchAux annotation_specs.length
      (fun comb => check_placement_validity comb bounding_boxes node_positions page_width_pt
        horizontal_padding_pt node_shifts has_columns) 5 1 = some (some c)) :
    find_optimal_placement annotation_specs bounding_boxes node_positions node_names
      page_width_pt horizontal_padding_pt node_shifts has_columns
      = some (mapsGo node_names c 1 ([], [])) ∧
    sameKeyAt c i j = false ∧
    (∀ lv a1 a2,
      ¬((i, lv, a1) ∈ (mapsGo node_names c 1 ([], [])).1 ∧
        (j, lv, a2) ∈ (mapsGo node_names c 1 ([], [])).1) ∧
      ¬((i, lv, a1) ∈ (mapsGo node_names c 1 ([], [])).2 ∧
        (j, lv, a2) ∈ (mapsGo node_names c 1 ([], [])).2)) := by
  obtain ⟨pre, post, heq, hpre, hcheck⟩ := searchAux_eq_some hfound
  have hcmem : c ∈ (List.range' 1 5).flatMap fun k =>
      generate_placement_combinations annotation_specs.length [20] (levelsBelow k) := by
    rw [heq]
    simp
  obtain ⟨k, hk, hck⟩ := List.mem_flatMap.1 hcmem
  have hkb : 1 ≤ k ∧ k < 6 := by
    have := List.mem_range'_1.1 hk
    omega
  have hkey : sameKeyAt c i j = false := by
    cases hkv : sameKeyAt c i j with
    | false => rfl
    | true => exact absurd hcheck (hH k hkb.2 hkb.1 c hck hkv)
  refine ⟨by simp [find_optimal_placement, hfound], hkey, ?_⟩
  intro lv a1 a2
  rw [mapsGo_eq]
  simp only [List.nil_append]
  constructor
  · rintro ⟨hmi, hmj⟩
    obtain ⟨cdi, hi1, hgi, hsi, _, hvi⟩ := mem_sideEntries.1 hmi
    obtain ⟨cdj, hj1, hgj, hsj, _, hvj⟩ := mem_sideEntries.1 hmj
    have : sameKeyAt c i j = true := by
      unfold sameKeyAt
      rw [hgi, hgj]
      refine decide_eq_true ⟨by rw [hsi, hsj], ?_⟩
      have e1 : cdi.level = lv := (Prod.mk.injEq .. ▸ hvi :
        lv = cdi.level ∧ a1 = cdi.anchor).1.symm
      have e2 : cdj.level = lv := (Prod.mk.injEq .. ▸ hvj :
        lv = cdj.level ∧ a2 = cdj.anchor).1.symm
      rw [e1, e2]
    rw [this] at hkey
    cases hkey
  · rintro ⟨hmi, hmj⟩
    obtain ⟨cdi, hi1, hgi, hsi, _, hvi⟩ := mem_sideEntries.1 hmi
    obtain ⟨cdj, hj1, hgj, hsj, _, hvj⟩ := mem_sideEntries.1 hmj
    have : sameKeyAt c i j = true := by
      unfold sameKeyAt
      rw [hgi, hgj]
      refine decide_eq_true ⟨by rw [hsi, hsj], ?_⟩
      have e1 : cdi.level = lv := (Prod.mk.injEq .. ▸ hvi :
        lv = cdi.level ∧ a1 = cdi.anchor).1.symm
      have e2 : cdj.level = lv := (Prod.mk.injEq .. ▸ hvj :
        lv = cdj.level ∧ a2 = cdj.anchor).1.symm
      rw [e1, e2]
    rw [this] at hkey
    cases hkey

/-- C3: in a validated (non-fallback) assignment returned by the search, no
annotation with a negative vertical shift appears in the above map, and no
annotation with a positive vertical shift appears in the below map. -/
theorem claim_C3 (annotation_specs : List (List Char × List Char))
    (bounding_boxes : Nat → Option (ℚ × ℚ)) (node_positions : Nat → Option ℚ)
    (node_names : Nat → Option (List Char)) (page_width_pt horizontal_padding_pt : ℚ)
    (node_shifts : Nat → Option ℚ) (has_columns : Bool) (c : List Candidate)
    (hfound : searchAux annotation_specs.length
      (fun comb => check_placement_validity comb bounding_boxes node_positions page_width_pt
        horizontal_padding_pt node_shifts has_columns) 5 1 = some (some c)) :
    find_optimal_placement annotation_specs bounding_boxes node_positions node_names
      page_width_pt horizontal_padding_pt node_shifts has_columns
      = some (mapsGo node_names c 1 ([], [])) ∧
    (∀ i v, (i, v) ∈ (mapsGo node_names c 1 ([], [])).1 →
      ∃ sh, node_shifts i = some sh ∧ 0 ≤ sh) ∧
    (∀ i v, (i, v) ∈ (mapsGo node_names c 1 ([], [])).2 →
      ∃ sh, node_shifts i = some sh ∧ sh ≤ 0) := by
  obtain ⟨pre, post, heq, hpre, hcheck⟩ := searchAux_eq_some hfound
  obtain ⟨gs, hb⟩ := check_true_buildGroups hcheck
  refine ⟨by simp [find_optimal_placement, hfound], ?_, ?_⟩
  · intro i v hm
    rw [mapsGo_eq] at hm
    simp only [List.nil_append] at hm
    obtain ⟨cd, hi1, hg, hside, _, _⟩ := mem_sideEntries.1 hm
    obtain ⟨sh, hsh, hna, _⟩ := buildGroups_shift hb (i - 1) cd hg
    have e1 : 1 + (i - 1) = i := by omega
    rw [e1] at hsh
    refine ⟨sh, hsh, ?_⟩
    by_contra hneg
    exact hna ⟨by linarith, hside⟩
  · intro i v hm
    rw [mapsGo_eq] at hm
    simp only [List.nil_append] at hm
    obtain ⟨cd, hi1, hg, hside, _, _⟩ := mem_sideEntries.1 hm
    obtain ⟨sh, hsh, _, hnb⟩ := buildGroups_shift hb (i - 1) cd hg
    have e1 : 1 + (i - 1) = i := by omega
    rw [e1] at hsh
    refine ⟨sh, hsh, ?_⟩
    by_contra hpos
    exact hnb ⟨by linarith, hside⟩

/-- C4: when no combination validates at any attempted level count, the
search returns normally with an empty above map and the degraded fallback
below map, which places every named annotation index `i` at level `2 + i`,
in index order at strictly increasing pairwise-distinct levels. -/
theorem claim_C4 (annotation_specs : List (List Char × List Char))
    (bounding_boxes : Nat → Option (ℚ × ℚ)) (node_positions : Nat → Option ℚ)
    (node_names : Nat → Option (List Char)) (page_width_pt horizontal_padding_pt : ℚ)
    (node_shifts : Nat → Option ℚ) (has_columns : Bool)
    (hall : ∀ k, k < 6 → 1 ≤ k →
      ∀ comb ∈ generate_placement_combinations annotation_specs.length [20] (levelsBelow k),
        check_placement_validity comb bounding_boxes node_positions page_width_pt
          horizontal_padding_pt node_shifts has_columns = some false)
    (hnames : ∀ i, 1 ≤ i → i ≤ annotation_specs.length → (node_names i).isSome) :
    find_optimal_placement annotation_specs bounding_boxes node_positions node_names
      page_width_pt horizontal_padding_pt node_shifts has_columns
      = some ([], fallbackBelow annotation_specs.length node_names) ∧
    fallbackBelow annotation_specs.length node_names =
      (List.range annotation_specs.length).map
        (fun idx => (idx + 1, (2 + ((idx + 1 : Nat) : ℚ), Anchor.baseWest))) ∧
    (fallbackBelow annotation_specs.length node_names).Pairwise
      (fun a b => a.2.1 < b.2.1) ∧
    (∀ i, 1 ≤ i → i ≤ annotation_specs.length →
      (i, (2 + (i : ℚ), Anchor.baseWest)) ∈ fallbackBelow annotation_specs.length node_names) := by
  have hs : searchAux annotation_specs.length
      (fun comb => check_placement_validity comb bounding_boxes node_positions page_width_pt
        horizontal_padding_pt node_shifts has_columns) 5 1 = some none :=
    searchAux_all_false fun j hj1 hj2 comb hcm => hall j (by omega) hj1 comb hcm
  refine ⟨by simp [find_optimal_placement, hs], fallbackBelow_total hnames,
    fallbackBelow_pairwise hnames, ?_⟩
  intro i hi1 hi2
  exact mem_fallbackBelow.2 ⟨hi1, hi2, hnames i hi1 hi2, rfl⟩

/-- C9: any terminating run of the search (validated or fallback path)
returns above/below maps with disjoint key sets, and every index carrying a
node name appears in exactly one of the two maps. -/
theorem claim_C9 (annotation_specs : List (List Char × List Char))
    (bounding_boxes : Nat → Option (ℚ × ℚ)) (node_positions : Nat → Option ℚ)
    (node_names : Nat → Option (List Char)) (page_width_pt horizontal_padding_pt : ℚ)
    (node_shifts : Nat → Option ℚ) (has_columns : Bool)
    (ab be : List (Nat × ℚ × Anchor))
    (hnames : ∀ i, (node_names i).isSome → 1 ≤ i ∧ i ≤ annotation_specs.length)
    (hrun : find_optimal_placement annotation_specs bounding_boxes node_positions node_names
      page_width_pt horizontal_padding_pt node_shifts has_columns = some (ab, be)) :
    (∀ i, ¬(i ∈ ab.map Prod.fst ∧ i ∈ be.map Prod.fst)) ∧
    (∀ i, (node_names i).isSome →
      (i ∈ ab.map Prod.fst ∧ i ∉ be.map Prod.fst) ∨
      (i ∈ be.map Prod.fst ∧ i ∉ ab.map Prod.fst)) := by
  unfold find_optimal_placement at hrun
  cases hs : searchAux annotation_specs.length
      (fun comb => check_placement_validity comb bounding_boxes node_positions page_width_pt
        horizontal_padding_pt node_shifts has_columns) 5 1 with
  | none => rw [hs] at hrun; cases hrun
  | some o =>
    cases o with
    | some cmb =>
      simp only [hs] at hrun
      have hmg : (ab, be) = mapsGo node_names cmb 1 ([], []) := (Option.some.inj hrun).symm
      rw [mapsGo_eq] at hmg
      simp only [List.nil_append] at hmg
      obtain ⟨hab, hbe⟩ : ab = sideEntries node_names Side.above cmb 1 ∧
          be = sideEntries node_names Side.below cmb 1 := by
        exact ⟨congrArg Prod.fst hmg, congrArg Prod.snd hmg⟩
      subst hab
      subst hbe
      have hdisj : ∀ i, ¬(i ∈ (sideEntries node_names Side.above cmb 1).map Prod.fst ∧
          i ∈ (sideEntries node_names Side.below cmb 1).map Prod.fst) := by
        rintro i ⟨hia, hib⟩
        obtain ⟨va, hma⟩ := mem_keys_iff.1 hia
        obtain ⟨vb, hmb⟩ := mem_keys_iff.1 hib
        obtain ⟨cda, _, hga, hsa, _, _⟩ := mem_sideEntries.1 hma
        obtain ⟨cdb, _, hgb, hsb, _, _⟩ := mem_sideEntries.1 hmb
        have : cda = cdb := by
          have := hga.symm.trans hgb
          simpa using this
        rw [this, hsb] at hsa
        cases hsa
      refine ⟨hdisj, ?_⟩
      intro i hni
      obtain ⟨hi1, hi2⟩ := hnames i hni
      -- the combination covers index i
      obtain ⟨pre, post, heq, _, _⟩ := searchAux_eq_some hs
      have hcmem : cmb ∈ (List.range' 1 5).flatMap fun k =>
          generate_placement_combinations annotation_specs.length [20] (levelsBelow k) := by
        rw [heq]
        simp
      obtain ⟨k, _, hck⟩ := List.mem_flatMap.1 hcmem
      have hclen : cmb.length = annotation_specs.length := combos_length hck
      have hlt : i - 1 < cmb.length := by omega
      obtain ⟨cd, hcd⟩ : ∃ cd, cmb[i - 1]? = some cd :=
        ⟨cmb[i - 1], List.getElem?_eq_getElem hlt⟩
      cases hside : cd.side
      · refine Or.inl ⟨mem_keys_iff.2 ⟨(cd.level, cd.anchor),
          mem_sideEntries.2 ⟨cd, hi1, hcd, hside, hni, rfl⟩⟩, ?_⟩
        intro hib
        exact hdisj i ⟨mem_keys_iff.2 ⟨(cd.level, cd.anchor),
          mem_sideEntries.2 ⟨cd, hi1, hcd, hside, hni, rfl⟩⟩, hib⟩
      · refine Or.inr ⟨mem_keys_iff.2 ⟨(cd.level, cd.anchor),
          mem_sideEntries.2 ⟨cd, hi1, hcd, hside, hni, rfl⟩⟩, ?_⟩
        intro hia
        exact hdisj i ⟨hia, mem_keys_iff.2 ⟨(cd.level, cd.anchor),
          mem_sideEntries.2 ⟨cd, hi1, hcd, hside, hni, rfl⟩⟩⟩
    | none =>
      simp only [hs] at hrun
      obtain ⟨hab, hbe⟩ : ab = [] ∧ be = fallbackBelow annotation_specs.length node_names := by
        have := Option.some.inj hrun
        exact ⟨(congrArg Prod.fst this).symm, (congrArg Prod.snd this).symm⟩
      subst hab
      subst hbe
      refine ⟨by simp, ?_⟩
      intro i hni
      obtain ⟨hi1, hi2⟩ := hnames i hni
      exact Or.inr ⟨mem_keys_iff.2 ⟨(2 + (i : ℚ), Anchor.baseWest),
        mem_fallbackBelow.2 ⟨hi1, hi2, hni, rfl⟩⟩, by simp⟩

/-- C10: the placement search is deterministic — equal inputs give equal
results; candidate options are generated in a fixed order (below-level
options before above-level options, `base west` before `base east` per
level), and a validated result is the first combination, in that fixed
generation order across widening attempts, whose validity check returns
true. -/
theorem claim_C10 (annotation_specs : List (List Char × List Char))
    (bounding_boxes : Nat → Option (ℚ × ℚ)) (node_positions : Nat → Option ℚ)
    (node_names : Nat → Option (List Char)) (page_width_pt horizontal_padding_pt : ℚ)
    (node_shifts : Nat → Option ℚ) (has_columns : Bool) :
    (find_optimal_placement annotation_specs bounding_boxes node_positions node_names
        page_width_pt horizontal_padding_pt node_shifts has_columns
      = find_optimal_placement annotation_specs bounding_boxes node_positions node_names
        page_width_pt horizontal_padding_pt node_shifts has_columns) ∧
    (∀ num_levels : Nat,
      annotationOptions [20] (levelsBelow num_levels) =
        ((levelsBelow num_levels).flatMap fun level =>
          [⟨Side.below, level, Anchor.baseWest⟩, ⟨Side.below, level, Anchor.baseEast⟩])
        ++ [⟨Side.above, 20, Anchor.baseWest⟩, ⟨Side.above, 20, Anchor.baseEast⟩]) ∧
    (∀ comb, searchAux annotation_specs.length
        (fun combination => check_placement_validity combination bounding_boxes node_positions
          page_width_pt horizontal_padding_pt node_shifts has_columns) 5 1
        = some (some comb) →
      find_optimal_placement annotation_specs bounding_boxes node_positions node_names
          page_width_pt horizontal_padding_pt node_shifts has_columns
        = some (mapsGo node_names comb 1 ([], [])) ∧
      ∃ pre post,
        ((List.range' 1 5).flatMap fun j =>
          generate_placement_combinations annotation_specs.length [20] (levelsBelow j))
          = pre ++ comb :: post ∧
        (∀ x ∈ pre, check_placement_validity x bounding_boxes node_positions page_width_pt
          horizontal_padding_pt node_shifts has_columns = some false) ∧
        check_placement_validity comb bounding_boxes node_positions page_width_pt
          horizontal_padding_pt node_shifts has_columns = some true) := by
  refine ⟨rfl, ?_, ?_⟩
  · intro num_levels
    simp [annotationOptions]
  · intro comb h
    exact ⟨by simp [find_optimal_placement, h], searchAux_eq_some h⟩

/-! ### Lemmas for the missing-measurement analysis -/

theorem buildGroups_isSome {bbs : Nat → Option (ℚ × ℚ)} {nps : Nat → Option ℚ} {pad : ℚ}
    {shifts : Nat → Option ℚ} {l : List Candidate} {i0 : Nat}
    {acc : List ((Side × ℚ) × List Entry)}
    (hsh : ∀ idx, idx < l.length → (shifts (i0 + idx)).isSome) :
    buildGroups bbs nps pad shifts l i0 acc ≠ none := by
  induction l generalizing i0 acc with
  | nil => simp [buildGroups]
  | cons c rest ih =>
    have h0 : (shifts i0).isSome := by simpa using hsh 0 (by simp)
    obtain ⟨sh, hsh0⟩ := Option.isSome_iff_exists.1 h0
    simp only [buildGroups, hsh0]
    have hrec : ∀ acc1 : List ((Side × ℚ) × List Entry),
        buildGroups bbs nps pad shifts rest (i0 + 1) acc1 ≠ none := by
      intro acc1
      refine ih fun idx hidx => ?_
      have harith : i0 + 1 + idx = i0 + (idx + 1) := by omega
      rw [harith]
      exact hsh (idx + 1) (by simpa using Nat.succ_lt_succ hidx)
    by_cases h1 : sh < 0 ∧ c.side = Side.above
    · simp [h1]
    · rw [if_neg h1]
      by_cases h2 : sh > 0 ∧ c.side = Side.below
      · simp [h2]
      · rw [if_neg h2]
        cases hb : bbs i0 <;> cases hn : nps i0 <;> simp only [hb, hn] <;> exact hrec _

theorem check_isSome {comb : List Candidate} {bbs : Nat → Option (ℚ × ℚ)}
    {nps : Nat → Option ℚ} {pw pad : ℚ} {shifts : Nat → Option ℚ} {cols : Bool}
    (hsh : ∀ idx, idx < comb.length → (shifts (1 + idx)).isSome) :
    check_placement_validity comb bbs nps pw pad shifts cols ≠ none := by
  intro h
  unfold check_placement_validity at h
  cases hb : buildGroups bbs nps pad shifts comb 1 [] with
  | none => exact buildGroups_isSome hsh hb
  | some o =>
    rw [hb] at h
    cases o <;> simp at h

theorem findValidCombo_isSome {check : List Candidate → Option Bool}
    {l : List (List Candidate)} (h : ∀ x ∈ l, check x ≠ none) :
    findValidCombo check l ≠ none := by
  induction l with
  | nil => simp [findValidCombo]
  | cons a rest ih =>
    cases hc : check a with
    | none => exact absurd hc (h a (by simp))
    | some b =>
      cases b with
      | true => simp [findValidCombo, hc]
      | false =>
        simp only [findValidCombo, hc]
        exact ih fun x hx => h x (by simp [hx])

theorem searchAux_isSome {n : Nat} {check : List Candidate → Option Bool} {fuel k : Nat}
    (hc : ∀ comb : List Candidate, comb.length = n → check comb ≠ none) :
    searchAux n check fuel k ≠ none := by
  induction fuel generalizing k with
  | zero => simp [searchAux]
  | succ fuel ih =>
    have hf : findValidCombo check
        (generate_placement_combinations n [20] (levelsBelow k)) ≠ none :=
      findValidCombo_isSome fun x hx => hc x (combos_length hx)
    cases hfv : findValidCombo check (generate_placement_combinations n [20] (levelsBelow k)) with
    | none => exact absurd hfv hf
    | some o =>
      cases o with
      | some comb => simp [searchAux, hfv]
      | none =>
        simp only [searchAux, hfv]
        exact ih

/-- C8 (amended): a missing label width/height measurement is non-fatal —
log parsing substitutes the built-in default `(50, 12)` extent for that
index — and, provided every node-position measurement is present, the
subsequent placement search runs to completion without raising.  (A missing
node-position measurement, by contrast, has no substitute and crashes the
search; see the counterexample.) -/
theorem claim_C8_amended (baseline_match : Option ℚ)
    (ann_matches node_matches : Nat → Option (ℚ × ℚ))
    (annotation_specs : List (List Char × List Char)) (node_names : Nat → Option (List Char))
    (page_width_pt horizontal_padding_pt : ℚ) (has_columns : Bool)
    (hnode : ∀ i, 1 ≤ i → i ≤ annotation_specs.length → (node_matches i).isSome) :
    (∀ i, 1 ≤ i → i ≤ annotation_specs.length →
      (parse_measurements_from_log baseline_match ann_matches node_matches
        annotation_specs.length).1 i = some ((ann_matches i).getD (50, 12))) ∧
    find_optimal_placement annotation_specs
      (parse_measurements_from_log baseline_match ann_matches node_matches
        annotation_specs.length).1
      (parse_measurements_from_log baseline_match ann_matches node_matches
        annotation_specs.length).2.1
      node_names page_width_pt horizontal_padding_pt
      (parse_measurements_from_log baseline_match ann_matches node_matches
        annotation_specs.length).2.2 has_columns ≠ none := by
  constructor
  · intro i hi1 hi2
    simp [parse_measurements_from_log, hi1, hi2]
  · have hshift : ∀ comb : List Candidate, comb.length = annotation_specs.length →
        ∀ idx, idx < comb.length →
        ((parse_measurements_from_log baseline_match ann_matches node_matches
          annotation_specs.length).2.2 (1 + idx)).isSome := by
      intro comb hlen idx hidx
      have h1 : 1 ≤ 1 + idx := by omega
      have h2 : 1 + idx ≤ annotation_specs.length := by omega
      have := hnode (1 + idx) h1 h2
      simp only [parse_measurements_from_log]
      rw [if_pos ⟨h1, h2⟩]
      simpa using this
    have hsearch : searchAux annotation_specs.length
        (fun comb => check_placement_validity comb
          (parse_measurements_from_log baseline_match ann_matches node_matches
            annotation_specs.length).1
          (parse_measurements_from_log baseline_match ann_matches node_matches
            annotation_specs.length).2.1
          page_width_pt horizontal_padding_pt
          (parse_measurements_from_log baseline_match ann_matches node_matches
            annotation_specs.length).2.2 has_columns) 5 1 ≠ none :=
      searchAux_isSome fun comb hlen => check_isSome (hshift comb hlen)
    unfold find_optimal_placement
    cases hs : searchAux annotation_specs.length
        (fun comb => check_placement_validity comb
          (parse_measurements_from_log baseline_match ann_matches node_matches
            annotation_specs.length).1
          (parse_measurements_from_log baseline_match ann_matches node_matches
            annotation_specs.length).2.1
          page_width_pt horizontal_padding_pt
          (parse_measurements_from_log baseline_match ann_matches node_matches
            annotation_specs.length).2.2 has_columns) 5 1 with
    | none => exact absurd hs hsearch
    | some o => cases o <;> simp

/-! ### Witnesses for the placement claims -/

attribute [local semireducible] Rat.add Rat.mul Rat.sub Rat.inv Rat.ofScientific in
set_option maxRecDepth 100000 in
/-- Concrete instantiation of the C1 theorem. -/
theorem claim_C1_witness :
    check_placement_validity c1_comb c1_bbs c1_nps (PAGE_WIDTH_PT false)
      HORIZONTAL_PADDING_PT c1_shifts false = some true ∧
    ((∀ i j ci cj wi xi wj xj, 1 ≤ i → 1 ≤ j → i ≠ j →
        c1_comb[i - 1]? = some ci → c1_comb[j - 1]? = some cj →
        ci.side = cj.side → ci.level = cj.level →
        c1_bbs i = some wi → c1_nps i = some xi →
        c1_bbs j = some wj → c1_nps j = some xj →
        spanR ci.anchor xi wi.1 ≤ spanL cj.anchor xj wj.1 ∨
          spanR cj.anchor xj wj.1 ≤ spanL ci.anchor xi wi.1) ∧
      (∀ i ci wi xi, 1 ≤ i → c1_comb[i - 1]? = some ci →
        c1_bbs i = some wi → c1_nps i = some xi →
        left_margin false ≤ spanL ci.anchor xi wi.1 ∧
          spanR ci.anchor xi wi.1 ≤ PAGE_WIDTH_PT false) ∧
      left_margin true < left_margin false ∧
      PAGE_WIDTH_PT true = (455 - 20) / 2 ∧ PAGE_WIDTH_PT false = 455) :=
  ⟨by decide, claim_C1 c1_comb c1_bbs c1_nps c1_shifts false (by decide)⟩

attribute [local semireducible] Rat.add Rat.mul Rat.sub Rat.inv Rat.ofScientific in
set_option maxRecDepth 400000 in
/-- Concrete instantiation of the C2 theorem. -/
theorem claim_C2_witness :
    find_optimal_placement c2_specs c2_bbs c2_nps c2_names (PAGE_WIDTH_PT false)
        HORIZONTAL_PADDING_PT c2_shifts false = some (mapsGo c2_names c2_comb 1 ([], [])) ∧
    sameKeyAt c2_comb 1 2 = false ∧
    (∀ lv a1 a2,
      ¬((1, lv, a1) ∈ (mapsGo c2_names c2_comb 1 ([], [])).1 ∧
        (2, lv, a2) ∈ (mapsGo c2_names c2_comb 1 ([], [])).1) ∧
      ¬((1, lv, a1) ∈ (mapsGo c2_names c2_comb 1 ([], [])).2 ∧
        (2, lv, a2) ∈ (mapsGo c2_names c2_comb 1 ([], [])).2)) :=
  claim_C2 c2_specs c2_bbs c2_nps c2_names (PAGE_WIDTH_PT false) HORIZONTAL_PADDING_PT
    c2_shifts false 1 2 c2_comb (by decide) (by decide) (by decide)

attribute [local semireducible] Rat.add Rat.mul Rat.sub Rat.inv Rat.ofScientific in
set_option maxRecDepth 100000 in
/-- Concrete instantiation of the C3 theorem. -/
theorem claim_C3_witness :
    find_optimal_placement c3_specs c3_bbs c3_nps c3_names (PAGE_WIDTH_PT false)
        HORIZONTAL_PADDING_PT c3_shifts false = some (mapsGo c3_names c3_comb 1 ([], [])) ∧
    (∀ i v, (i, v) ∈ (mapsGo c3_names c3_comb 1 ([], [])).1 →
      ∃ sh, c3_shifts i = some sh ∧ 0 ≤ sh) ∧
    (∀ i v, (i, v) ∈ (mapsGo c3_names c3_comb 1 ([], [])).2 →
      ∃ sh, c3_shifts i = some sh ∧ sh ≤ 0) :=
  claim_C3 c3_specs c3_bbs c3_nps c3_names (PAGE_WIDTH_PT false) HORIZONTAL_PADDING_PT
    c3_shifts false c3_comb (by decide)

attribute [local semireducible] Rat.add Rat.mul Rat.sub Rat.inv Rat.ofScientific in
set_option maxRecDepth 400000 in
/-- Concrete instantiation of the C4 theorem. -/
theorem claim_C4_witness :
    find_optimal_placement c4_specs c4_bbs c4_nps c4_names (PAGE_WIDTH_PT false)
        HORIZONTAL_PADDING_PT c4_shifts false
      = some ([], fallbackBelow c4_specs.length c4_names) ∧
    fallbackBelow c4_specs.length c4_names =
      (List.range c4_specs.length).map
        (fun idx => (idx + 1, (2 + ((idx + 1 : Nat) : ℚ), Anchor.baseWest))) ∧
    (fallbackBelow c4_specs.length c4_names).Pairwise (fun a b => a.2.1 < b.2.1) ∧
    (∀ i, 1 ≤ i → i ≤ c4_specs.length →
      (i, (2 + (i : ℚ), Anchor.baseWest)) ∈ fallbackBelow c4_specs.length c4_names) :=
  claim_C4 c4_specs c4_bbs c4_nps c4_names (PAGE_WIDTH_PT false) HORIZONTAL_PADDING_PT
    c4_shifts false (by decide)
    (by
      intro i h1 h2
      have h3 : i ≤ 2 := by simpa [c4_specs] using h2
      interval_cases i <;> decide)

attribute [local semireducible] Rat.add Rat.mul Rat.sub Rat.inv Rat.ofScientific in
set_option maxRecDepth 100000 in
/-- C8 counterexample: with the `NODEPOS1` line missing from the log, parsing
substitutes the default extent for the label but records no node position
and no shift, and the subsequent placement search raises (embedded `none`)
instead of running to completion. -/
theorem claim_C8_counterexample :
    (parse_measurements_from_log none (fun _ => none) (fun _ => none) 1).1 1
      = some (50, 12) ∧
    find_optimal_placement [("x".data, "L".data)]
      (parse_measurements_from_log none (fun _ => none) (fun _ => none) 1).1
      (parse_measurements_from_log none (fun _ => none) (fun _ => none) 1).2.1
      (fun i => if i = 1 then some "node1".data else none)
      (PAGE_WIDTH_PT false) HORIZONTAL_PADDING_PT
      (parse_measurements_from_log none (fun _ => none) (fun _ => none) 1).2.2 false
      = none := by
  constructor
  · decide
  · decide

attribute [local semireducible] Rat.add Rat.mul Rat.sub Rat.inv Rat.ofScientific in
set_option maxRecDepth 100000 in
/-- Concrete instantiation of the amended C8 theorem. -/
theorem claim_C8_witness :
    (∀ i, 1 ≤ i → i ≤ c8_specs.length →
      (parse_measurements_from_log none c8_ann_matches c8_node_matches c8_specs.length).1 i
        = some ((c8_ann_matches i).getD (50, 12))) ∧
    find_optimal_placement c8_specs
      (parse_measurements_from_log none c8_ann_matches c8_node_matches c8_specs.length).1
      (parse_measurements_from_log none c8_ann_matches c8_node_matches c8_specs.length).2.1
      c8_names (PAGE_WIDTH_PT false) HORIZONTAL_PADDING_PT
      (parse_measurements_from_log none c8_ann_matches c8_node_matches c8_specs.length).2.2
      false ≠ none :=
  claim_C8_amended none c8_ann_matches c8_node_matches c8_specs c8_names
    (PAGE_WIDTH_PT false) HORIZONTAL_PADDING_PT false
    (by
      intro i h1 h2
      have h3 : i ≤ 1 := by simpa [c8_specs] using h2
      interval_cases i <;> decide)

attribute [local semireducible] Rat.add Rat.mul Rat.sub Rat.inv Rat.ofScientific in
set_option maxRecDepth 100000 in
/-- Concrete instantiation of the C9 theorem. -/
theorem claim_C9_witness :
    (∀ i, ¬(i ∈ (([] : List (Nat × ℚ × Anchor))).map Prod.fst ∧
      i ∈ ([(1, ((15 : ℚ), Anchor.baseWest))] : List (Nat × ℚ × Anchor)).map Prod.fst)) ∧
    (∀ i, (c9_names i).isSome →
      (i ∈ (([] : List (Nat × ℚ × Anchor))).map Prod.fst ∧
        i ∉ ([(1, ((15 : ℚ), Anchor.baseWest))] : List (Nat × ℚ × Anchor)).map Prod.fst) ∨
      (i ∈ ([(1, ((15 : ℚ), Anchor.baseWest))] : List (Nat × ℚ × Anchor)).map Prod.fst ∧
        i ∉ (([] : List (Nat × ℚ × Anchor))).map Prod.fst)) :=
  claim_C9 c9_specs c9_bbs c9_nps c9_names (PAGE_WIDTH_PT false) HORIZONTAL_PADDING_PT
    c9_shifts false [] [(1, ((15 : ℚ), Anchor.baseWest))]
    (by
      intro i hi
      by_cases h : i = 1
      · subst h
        exact ⟨le_refl 1, by simp [c9_specs]⟩
      · simp [c9_names, h] at hi)
    (by decide)

attribute [local semireducible] Rat.add Rat.mul Rat.sub Rat.inv Rat.ofScientific in
set_option maxRecDepth 100000 in
/-- Concrete instantiation of the C10 theorem's first-fit consequence. -/
theorem claim_C10_witness :
    find_optimal_placement c10_specs c10_bbs c10_nps c10_names (PAGE_WIDTH_PT false)
        HORIZONTAL_PADDING_PT c10_shifts false
      = some (mapsGo c10_names c10_comb 1 ([], [])) ∧
    ∃ pre post,
      ((List.range' 1 5).flatMap fun j =>
        generate_placement_combinations c10_specs.length [20] (levelsBelow j))
        = pre ++ c10_comb :: post ∧
      (∀ x ∈ pre, check_placement_validity x c10_bbs c10_nps (PAGE_WIDTH_PT false)
        HORIZONTAL_PADDING_PT c10_shifts false = some false) ∧
      check_placement_validity c10_comb c10_bbs c10_nps (PAGE_WIDTH_PT false)
        HORIZONTAL_PADDING_PT c10_shifts false = some true :=
  (claim_C10 c10_specs c10_bbs c10_nps c10_names (PAGE_WIDTH_PT false) HORIZONTAL_PADDING_PT
    c10_shifts false).2.2 c10_comb (by decide)

/-! ### Injectivity of the decimal node names -/

theorem digitChar_inj : ∀ a, a < 10 → ∀ b, b < 10 →
    Nat.digitChar a = Nat.digitChar b → a = b := by decide

theorem toDigitsCore_append {f n : Nat} {ds : List Char} (h : n < 10 ^ f) :
    Nat.toDigitsCore 10 f n ds = Nat.toDigitsCore 10 f n [] ++ ds := by
  induction f generalizing n ds with
  | zero => simp [Nat.toDigitsCore]
  | succ f ih =>
    simp only [Nat.toDigitsCore]
    by_cases h0 : n / 10 = 0
    · simp [h0]
    · rw [if_neg h0, if_neg h0]
      have hlt : n / 10 < 10 ^ f := by
        rw [Nat.div_lt_iff_lt_mul (by norm_num)]
        calc n < 10 ^ (f + 1) := h
        _ = 10 ^ f * 10 := by ring
      rw [ih hlt, @ih (n / 10) [Nat.digitChar (n % 10)] hlt]
      simp

theorem toDigitsCore_eq_toDigits {n : Nat} :
    ∀ {f : Nat}, n < 10 ^ f → 1 ≤ f → Nat.toDigitsCore 10 f n [] = Nat.toDigits 10 n := by
  induction n using Nat.strong_induction_on with
  | _ n ihn =>
    intro f hf h1
    obtain ⟨f', rfl⟩ : ∃ f', f = f' + 1 := ⟨f - 1, by omega⟩
    by_cases h0 : n / 10 = 0
    · show _ = Nat.toDigitsCore 10 (n + 1) n []
      simp only [Nat.toDigitsCore]
      rw [if_pos h0, if_pos h0]
    · have h10 : 10 ≤ n := by
        by_contra hcon
        exact h0 (Nat.div_eq_of_lt (by omega))
      have hf1 : 1 ≤ f' := by
        rcases Nat.eq_zero_or_pos f' with rfl | h
        · norm_num at hf
          omega
        · exact h
      have hdiv : n / 10 < 10 ^ f' := by
        rw [Nat.div_lt_iff_lt_mul (by norm_num)]
        calc n < 10 ^ (f' + 1) := hf
        _ = 10 ^ f' * 10 := by ring
      have hdivn : n / 10 < 10 ^ n :=
        lt_of_le_of_lt (Nat.div_le_self n 10) (Nat.lt_pow_self (by norm_num) n)
      have hlt : n / 10 < n := Nat.div_lt_self (by omega) (by norm_num)
      have lhs : Nat.toDigitsCore 10 (f' + 1) n [] =
          Nat.toDigits 10 (n / 10) ++ [Nat.digitChar (n % 10)] := by
        simp only [Nat.toDigitsCore]
        rw [if_neg h0, toDigitsCore_append hdiv, ihn (n / 10) hlt hdiv hf1]
      have rhs : Nat.toDigits 10 n =
          Nat.toDigits 10 (n / 10) ++ [Nat.digitChar (n % 10)] := by
        show Nat.toDigitsCore 10 (n + 1) n [] = _
        simp only [Nat.toDigitsCore]
        rw [if_neg h0, toDigitsCore_append hdivn, ihn (n / 10) hlt hdivn (by omega)]
      rw [lhs, rhs]

theorem toDigits_small {n : Nat} (h : n < 10) : Nat.toDigits 10 n = [Nat.digitChar n] := by
  have h0 : n / 10 = 0 := Nat.div_eq_of_lt h
  show Nat.toDigitsCore 10 (n + 1) n [] = _
  simp only [Nat.toDigitsCore]
  rw [if_pos h0, Nat.mod_eq_of_lt h]

theorem toDigits_step {n : Nat} (h : 10 ≤ n) :
    Nat.toDigits 10 n = Nat.toDigits 10 (n / 10) ++ [Nat.digitChar (n % 10)] := by
  have h1 : 1 ≤ n / 10 := (Nat.one_le_div_iff (by norm_num)).2 h
  have h0 : ¬(n / 10 = 0) := by omega
  have hdivn : n / 10 < 10 ^ n :=
    lt_of_le_of_lt (Nat.div_le_self n 10) (Nat.lt_pow_self (by norm_num) n)
  show Nat.toDigitsCore 10 (n + 1) n [] = _
  simp only [Nat.toDigitsCore]
  rw [if_neg h0, toDigitsCore_append hdivn, toDigitsCore_eq_toDigits hdivn (by omega)]

theorem toDigits_ne_nil {n : Nat} : Nat.toDigits 10 n ≠ [] := by
  by_cases h : n < 10
  · rw [toDigits_small h]
    simp
  · rw [toDigits_step (by omega)]
    simp

theorem toDigits_inj : ∀ {a b : Nat}, Nat.toDigits 10 a = Nat.toDigits 10 b → a = b := by
  intro a
  induction a using Nat.strong_induction_on with
  | _ a iha =>
    intro b h
    by_cases ha : a < 10 <;> by_cases hb : b < 10
    · rw [toDigits_small ha, toDigits_small hb] at h
      have hd : Nat.digitChar a = Nat.digitChar b := by simpa using h
      exact digitChar_inj a ha b hb hd
    · exfalso
      rw [toDigits_small ha, toDigits_step (by omega)] at h
      have hlen := congrArg List.length h
      simp only [List.length_singleton, List.length_append] at hlen
      have hpos : 0 < (Nat.toDigits 10 (b / 10)).length :=
        List.length_pos.2 toDigits_ne_nil
      omega
    · exfalso
      rw [toDigits_step (by omega), toDigits_small hb] at h
      have hlen := congrArg List.length h
      simp only [List.length_singleton, List.length_append] at hlen
      have hpos : 0 < (Nat.toDigits 10 (a / 10)).length :=
        List.length_pos.2 toDigits_ne_nil
      omega
    · rw [toDigits_step (show 10 ≤ a by omega), toDigits_step (show 10 ≤ b by omega)] at h
      obtain ⟨h1, h2⟩ := List.append_inj' h (by simp)
      have hd : a / 10 = b / 10 :=
        iha (a / 10) (Nat.div_lt_self (by omega) (by norm_num)) h1
      have hm : a % 10 = b % 10 := by
        have hdc : Nat.digitChar (a % 10) = Nat.digitChar (b % 10) := by simpa using h2
        exact digitChar_inj _ (Nat.mod_lt _ (by norm_num)) _ (Nat.mod_lt _ (by norm_num)) hdc
      have ha10 := Nat.div_add_mod a 10
      have hb10 := Nat.div_add_mod b 10
      omega

theorem repr_data_inj {a b : Nat} (h : (Nat.repr a).data = (Nat.repr b).data) : a = b :=
  toDigits_inj h

theorem nodeName_inj {a b : Nat} (h : nodeName a = nodeName b) : a = b := by
  unfold nodeName at h
  exact repr_data_inj (List.append_cancel_left h)

/-! ### Lemmas about the tagger -/

theorem NamesInv_update {m : Nat → Option (List Char)} {counter i0 : Nat}
    (hinv : NamesInv m counter) :
    NamesInv (fun j => if j = i0 then some (nodeName (counter + 1)) else m j) (counter + 1) := by
  constructor
  · intro i s h
    dsimp only at h
    by_cases hi : i = i0
    · rw [if_pos hi] at h
      exact ⟨counter + 1, le_refl _, (Option.some.inj h).symm⟩
    · rw [if_neg hi] at h
      obtain ⟨k, hk, rfl⟩ := hinv.1 i s h
      exact ⟨k, by omega, rfl⟩
  · intro i j s hi hj
    dsimp only at hi hj
    by_cases h1 : i = i0 <;> by_cases h2 : j = i0
    · rw [h1, h2]
    · exfalso
      rw [if_pos h1] at hi
      rw [if_neg h2] at hj
      obtain ⟨k, hk, rfl⟩ := hinv.1 j s hj
      have : counter + 1 = k := nodeName_inj (Option.some.inj hi)
      omega
    · exfalso
      rw [if_neg h1] at hi
      rw [if_pos h2] at hj
      obtain ⟨k, hk, rfl⟩ := hinv.1 i s hi
      have : counter + 1 = k := nodeName_inj (Option.some.inj hj)
      omega
    · rw [if_neg h1] at hi
      rw [if_neg h2] at hj
      exact hinv.2 i j s hi hj

theorem taggerGo_ok {l : List (Nat × List Char × List Char)} {res : List Char}
    {counter1 : Nat} {names : Nat → Option (List Char)} :
    ∀ {s : List Char} {counter : Nat} {m : Nat → Option (List Char)},
    taggerGo s l counter m = some (Except.ok (res, names, counter1)) →
    NamesInv m counter →
    counter1 = counter + l.length ∧
    (∀ i, (names i).isSome ↔ ((m i).isSome ∨ i ∈ l.map Prod.fst)) ∧
    NamesInv names counter1 := by
  induction l with
  | nil =>
    intro s counter m h hinv
    simp only [taggerGo, Option.some.injEq, Except.ok.injEq, Prod.mk.injEq] at h
    obtain ⟨h1, h2, h3⟩ := h
    subst h2
    subst h3
    exact ⟨by simp, by simp, hinv⟩
  | cons p rest ih =>
    intro s counter m h hinv
    obtain ⟨i0, t, lab⟩ := p
    cases hf : findValidPos s t with
    | none => simp [taggerGo, hf] at h
    | some o =>
      cases o with
      | none => simp [taggerGo, hf] at h
      | some pos =>
        have hrec : taggerGo (s.take pos ++ wrappedMarker (nodeName (counter + 1)) t
            ++ s.drop (pos + t.length)) rest (counter + 1)
            (fun j => if j = i0 then some (nodeName (counter + 1)) else m j)
            = some (Except.ok (res, names, counter1)) := by
          simpa [taggerGo, hf] using h
        obtain ⟨hc, hkeys, hinv1⟩ := ih hrec (NamesInv_update hinv)
        refine ⟨?_, ?_, hinv1⟩
        · rw [hc]
          simp only [List.length_cons]
          omega
        intro i
        rw [hkeys i]
        by_cases hi : i = i0
        · subst hi
          simp
        · simp [hi]

theorem taggerGo_error {l : List (Nat × List Char × List Char)} {msg : List Char} :
    ∀ {s : List Char} {counter : Nat} {m : Nat → Option (List Char)},
    taggerGo s l counter m = some (Except.error msg) →
    ∃ i t lab, (i, t, lab) ∈ l ∧ msg = targetNotFoundMsg t := by
  induction l with
  | nil => intro s counter m h; simp [taggerGo] at h
  | cons p rest ih =>
    intro s counter m h
    obtain ⟨i0, t, lab⟩ := p
    cases hf : findValidPos s t with
    | none => simp [taggerGo, hf] at h
    | some o =>
      cases o with
      | none =>
        have hm : targetNotFoundMsg t = msg := by
          simpa [taggerGo, hf] using h
        exact ⟨i0, t, lab, by simp, hm.symm⟩
      | some pos =>
        have hrec : taggerGo (s.take pos ++ wrappedMarker (nodeName (counter + 1)) t
            ++ s.drop (pos + t.length)) rest (counter + 1)
            (fun j => if j = i0 then some (nodeName (counter + 1)) else m j)
            = some (Except.error msg) := by
          simpa [taggerGo, hf] using h
        obtain ⟨i1, t1, lab1, hmem, hm⟩ := ih hrec
        exact ⟨i1, t1, lab1, by simp [hmem], hm⟩

theorem mem_insertSpecDesc {x a : Nat × List Char × List Char}
    {l : List (Nat × List Char × List Char)} :
    a ∈ insertSpecDesc x l ↔ a = x ∨ a ∈ l := by
  induction l with
  | nil => simp [insertSpecDesc]
  | cons b bs ih =>
    simp only [insertSpecDesc]
    by_cases h : x.2.1.length < b.2.1.length
    · rw [if_pos h]
      simp only [List.mem_cons, ih]
      tauto
    · rw [if_neg h]
      simp only [List.mem_cons]

theorem mem_sortSpecsDesc {a : Nat × List Char × List Char}
    {l : List (Nat × List Char × List Char)} :
    a ∈ sortSpecsDesc l ↔ a ∈ l := by
  induction l with
  | nil => simp [sortSpecsDesc]
  | cons b bs ih => simp [sortSpecsDesc, mem_insertSpecDesc, ih]

theorem length_insertSpecDesc {x : Nat × List Char × List Char}
    {l : List (Nat × List Char × List Char)} :
    (insertSpecDesc x l).length = l.length + 1 := by
  induction l with
  | nil => simp [insertSpecDesc]
  | cons b bs ih =>
    simp only [insertSpecDesc]
    by_cases h : x.2.1.length < b.2.1.length
    · rw [if_pos h]
      simp [ih]
    · rw [if_neg h]
      simp

theorem length_sortSpecsDesc {l : List (Nat × List Char × List Char)} :
    (sortSpecsDesc l).length = l.length := by
  induction l with
  | nil => rfl
  | cons b bs ih => simp [sortSpecsDesc, length_insertSpecDesc, ih]

theorem mem_enumFrom_keys {α : Type} {l : List α} {n i : Nat} :
    i ∈ (List.enumFrom n l).map Prod.fst ↔ n ≤ i ∧ i < n + l.length := by
  induction l generalizing n with
  | nil => simp
  | cons a as ih =>
    simp only [List.enumFrom_cons, List.map_cons, List.mem_cons, ih, List.length_cons]
    omega

theorem mem_enumFrom_snd {α : Type} {l : List α} {n : Nat} {x : Nat × α}
    (h : x ∈ List.enumFrom n l) : x.2 ∈ l := by
  induction l generalizing n with
  | nil => simp at h
  | cons a as ih =>
    simp only [List.enumFrom_cons, List.mem_cons] at h
    rcases h with rfl | h
    · simp
    · simp [ih h]

/-- C6: whenever the tagger succeeds, the returned node counter equals the
input counter plus the number of annotations, the name map is keyed by
exactly the original 1-based annotation indices (one marker per
annotation), and the marker names are pairwise distinct — naming is by
original index regardless of the length-descending scan order. -/
theorem claim_C6 (equation_content : List Char)
    (annotation_specs : List (List Char × List Char)) (node_counter : Nat)
    (res : List Char) (names : Nat → Option (List Char)) (counter1 : Nat)
    (hok : create_tikzmarknode_equation_new equation_content annotation_specs node_counter
      = some (Except.ok (res, names, counter1))) :
    counter1 = node_counter + annotation_specs.length ∧
    (∀ i, (names i).isSome ↔ (1 ≤ i ∧ i ≤ annotation_specs.length)) ∧
    (∀ i j s, names i = some s → names j = some s → i = j) := by
  have h0 : NamesInv (fun _ => none) node_counter := ⟨by simp, by simp⟩
  obtain ⟨hc, hkeys, hinv⟩ := taggerGo_ok hok h0
  refine ⟨by rw [hc, length_sortSpecsDesc, List.enumFrom_length], ?_, hinv.2⟩
  intro i
  rw [hkeys i]
  constructor
  · rintro (hm | hm)
    · simp at hm
    · obtain ⟨⟨i1, t1, lab1⟩, hmem, hfst⟩ := List.mem_map.1 hm
      rw [mem_sortSpecsDesc] at hmem
      have := mem_enumFrom_keys.1 (List.mem_map.2 ⟨(i1, t1, lab1), hmem, hfst⟩)
      omega
  · rintro ⟨h1, h2⟩
    right
    have : i ∈ (List.enumFrom 1 annotation_specs).map Prod.fst :=
      mem_enumFrom_keys.2 ⟨h1, by omega⟩
    obtain ⟨x, hmem, hfst⟩ := List.mem_map.1 this
    exact List.mem_map.2 ⟨x, mem_sortSpecsDesc.2 hmem, hfst⟩

/-- C7: whenever the tagger fails, the raised error's message names the
offending target — it is the target-not-found message for one of the
annotation list's target strings — and, the result being an error, no
tagged equation is returned; conversely, when the first scanned
annotation's target has no occurrence outside inserted markers, the tagger
does raise that error. -/
theorem claim_C7 (equation_content : List Char)
    (annotation_specs : List (List Char × List Char)) (node_counter : Nat) :
    (∀ msg, create_tikzmarknode_equation_new equation_content annotation_specs node_counter
        = some (Except.error msg) →
      ∃ t, t ∈ annotation_specs.map Prod.fst ∧ msg = targetNotFoundMsg t) ∧
    (∀ i t lab rest,
      sortSpecsDesc (List.enumFrom 1 annotation_specs) = (i, t, lab) :: rest →
      findValidPos equation_content t = some none →
      create_tikzmarknode_equation_new equation_content annotation_specs node_counter
        = some (Except.error (targetNotFoundMsg t))) := by
  constructor
  · intro msg herr
    obtain ⟨i, t, lab, hmem, hm⟩ := taggerGo_error herr
    rw [mem_sortSpecsDesc] at hmem
    have hsnd : (t, lab) ∈ annotation_specs := mem_enumFrom_snd hmem
    exact ⟨t, List.mem_map.2 ⟨(t, lab), hsnd, rfl⟩, hm⟩
  · intro i t lab rest hsort hfvp
    unfold create_tikzmarknode_equation_new
    rw [hsort]
    simp [taggerGo, hfvp]

set_option maxRecDepth 1000000 in
/-- C5 (code bug evaluation): on equation `x+y=1` with annotation targets
`x+y` and `x`, the longer target is claimed first, but the tagger then
accepts the occurrence of `x` inside the first marker's content span: the
backward brace scan closes at the node-name brace group (`\x7bnode1\x7d`)
rather than the content group, so the second marker is nested inside the
first instead of wrapping a disjoint region. -/
theorem claim_C5_eval :
    taggedString (create_tikzmarknode_equation_new "x+y=1".data
      [("x+y".data, "A".data), ("x".data, "B".data)] 0) = some c5_res ∧
    taggedName (create_tikzmarknode_equation_new "x+y=1".data
      [("x+y".data, "A".data), ("x".data, "B".data)] 0) 1 = some "node1".data ∧
    taggedName (create_tikzmarknode_equation_new "x+y=1".data
      [("x+y".data, "A".data), ("x".data, "B".data)] 0) 2 = some "node2".data ∧
    taggedCounter (create_tikzmarknode_equation_new "x+y=1".data
      [("x+y".data, "A".data), ("x".data, "B".data)] 0) = some 2 := by
  exact ⟨by decide, by decide, by decide, by decide⟩

set_option maxRecDepth 1000000 in
/-- Concrete instantiation of the C6 theorem. -/
theorem claim_C6_witness :
    2 = 0 + ([("W".data, "First".data), ("V".data, "Second".data)]
      : List (List Char × List Char)).length ∧
    (∀ i, (c6_names i).isSome ↔
      (1 ≤ i ∧ i ≤ ([("W".data, "First".data), ("V".data, "Second".data)]
        : List (List Char × List Char)).length)) ∧
    (∀ i j s, c6_names i = some s → c6_names j = some s → i = j) :=
  claim_C6 "W+V=q".data [("W".data, "First".data), ("V".data, "Second".data)] 0
    c6_res c6_names 2 (by rfl)

set_option maxRecDepth 1000000 in
/-- Concrete instantiation of the C7 theorem: target `z` has no occurrence
in `a+b`, so the tagger raises the error naming `z`. -/
theorem claim_C7_witness :
    create_tikzmarknode_equation_new "a+b".data [("z".data, "Z".data)] 0
      = some (Except.error (targetNotFoundMsg "z".data)) ∧
    (∃ t, t ∈ ([("z".data, "Z".data)] : List (List Char × List Char)).map Prod.fst ∧
      targetNotFoundMsg "z".data = targetNotFoundMsg t) :=
  ⟨(claim_C7 "a+b".data [("z".data, "Z".data)] 0).2 1 "z".data "Z".data []
      (by rfl) (by decide),
   (claim_C7 "a+b".data [("z".data, "Z".data)] 0).1 (targetNotFoundMsg "z".data)
     ((claim_C7 "a+b".data [("z".data, "Z".data)] 0).2 1 "z".data "Z".data []
       (by rfl) (by decide))⟩
